import Mathlib

/-!
Verification of the beam1010 rules engine and beam-search planner.

Shallow embedding of `src/beam1010/{pieces,state,rules,moves,heuristics,beam_search}.py`:
boards are lists of lists of naturals (0 = empty, non-zero = filled), Python ints that can
be negative (placement coordinates, hand indices, beam parameters) are `Int`, Python floats
used only for heuristic arithmetic are modelled exactly as `Rat`, and Python exceptions are
`Except String`.
-/

namespace Beam1010

/-- Board: rectangular grid of non-negative integers, 0 = empty (state.py). -/
abbrev Board := List (List Nat)

/-- `board[r][c]` with out-of-range access defaulting to 0 (the embedding only
reads in-range cells on validated boards). -/
def cellAt (b : Board) (r c : Nat) : Nat := (b.getD r []).getD c 0

/-- Width as the source computes it: `len(board[0])`. -/
def boardWidth (b : Board) : Nat := (b.getD 0 []).length

/-- `_validate_board` from state.py: at least one row, at least one column,
rectangular (cell non-negativity is carried by `Nat`). -/
def validBoard (b : Board) : Bool :=
  decide (0 < b.length) && decide (0 < boardWidth b) &&
    b.all (fun row => row.length == boardWidth b)

/-- A placeable piece (pieces.py): name and rectangular 0/1 occupancy mask. -/
structure Piece where
  name : String
  shape : List (List Nat)
  deriving Repr, DecidableEq

instance : Inhabited Piece := ⟨⟨"", [[0]]⟩⟩

/-- `Piece.height`. -/
def Piece.height (p : Piece) : Nat := p.shape.length

/-- `Piece.width`: `len(self.shape[0]) if self.shape else 0`. -/
def Piece.width (p : Piece) : Nat := (p.shape.getD 0 []).length

/-- `Piece.block_count`: sum of occupied cells. -/
def Piece.block_count (p : Piece) : Nat := (p.shape.map (fun row => row.sum)).sum

/-- `_to_shape` validation from pieces.py: non-empty, rectangular, cells in {0,1}. -/
def validShape (p : Piece) : Bool :=
  decide (0 < p.shape.length) && decide (0 < p.width) &&
    p.shape.all (fun row => row.length == p.width && row.all (fun c => c ≤ 1))

/-- A deterministic search state (state.py): board, accumulated score, remaining hand. -/
structure GameState where
  board : Board
  score : Nat
  hand : List Piece
  deriving Repr, DecidableEq

instance : Inhabited GameState := ⟨⟨[[0]], 0, []⟩⟩

/-- `GameState.__post_init__`: score ≥ 0 (carried by `Nat`), hand of 0-3 pieces,
valid board. -/
def validState (s : GameState) : Bool :=
  decide (s.hand.length ≤ 3) && validBoard s.board

/-- `GameState(board=..., score=..., hand=...)` as a fallible constructor: the
dataclass `__post_init__` raises on an oversized hand or a malformed board. -/
def mkGameState (board : Board) (score : Nat) (hand : List Piece) :
    Except String GameState :=
  if 3 < hand.length then .error "hand must have 0-3 pieces"
  else if !validBoard board then .error "invalid board"
  else .ok ⟨board, score, hand⟩

/-- `can_place` (rules.py): true iff `piece` fits at `(row, col)` without leaving
the board or overlapping an occupied cell. -/
def can_place (board : Board) (piece : Piece) (row col : Int) : Bool :=
  (List.range piece.height).all fun i =>
    (List.range piece.width).all fun j =>
      if (piece.shape.getD i []).getD j 0 != 1 then true
      else
        let br : Int := row + i
        let bc : Int := col + j
        decide (0 ≤ br) && decide (br < (board.length : Int)) &&
        decide (0 ≤ bc) && decide (bc < (boardWidth board : Int)) &&
        (cellAt board br.toNat bc.toNat == 0)

/-- The specification-side reading of a legal placement: every occupied mask cell
lands in bounds on an empty board cell. -/
def PlacementFits (board : Board) (piece : Piece) (row col : Int) : Prop :=
  ∀ i j, i < piece.height → j < piece.width →
    (piece.shape.getD i []).getD j 0 = 1 →
    0 ≤ row + i ∧ row + i < (board.length : Int) ∧
    0 ≤ col + j ∧ col + j < (boardWidth board : Int) ∧
    cellAt board (row + i).toNat (col + j).toNat = 0

/-- Board write `grid[r][c] = v` on the nested-list representation (a no-op out
of range, which placement never hits once `can_place` has passed). -/
def setCell (b : Board) (r c : Nat) (v : Nat) : Board :=
  b.set r ((b.getD r []).set c v)

/-- The nested placement loops of `place_piece`: write `value` at every board
cell covered by an occupied mask cell. -/
def placeGrid (piece : Piece) (row col : Int) (value : Nat) (board : Board) : Board :=
  (List.range piece.height).foldl (fun g i =>
    (List.range piece.width).foldl (fun g j =>
      if (piece.shape.getD i []).getD j 0 == 1 then
        setCell g (row + i).toNat (col + j).toNat value
      else g) g) board

/-- `place_piece` (rules.py): raise on an illegal placement, else return the new
board with the piece stamped in. -/
def place_piece (board : Board) (piece : Piece) (row col : Int) (value : Nat := 1) :
    Except String Board :=
  if !can_place board piece row col then .error "Invalid placement"
  else .ok (placeGrid piece row col value board)

/-- Board cell `(r, c)` is covered by an occupied cell of `piece` placed at
`(row, col)`. -/
def CoveredBy (piece : Piece) (row col : Int) (r c : Nat) : Prop :=
  ∃ i < piece.height, ∃ j < piece.width,
    (piece.shape.getD i []).getD j 0 = 1 ∧ row + i = (r : Int) ∧ col + j = (c : Int)

instance (piece : Piece) (row col : Int) (r c : Nat) :
    Decidable (CoveredBy piece row col r c) := by
  unfold CoveredBy
  infer_instance

/-- One inner placement pass (fixed mask row `i`) over a list of column indices. -/
def innerPass (piece : Piece) (row col : Int) (value : Nat) (i : Nat)
    (g : Board) (js : List Nat) : Board :=
  js.foldl (fun g j =>
    if (piece.shape.getD i []).getD j 0 == 1 then
      setCell g (row + i).toNat (col + j).toNat value
    else g) g

/-- The placement result, characterized cell by cell. -/
def PlaceResultSpec (board : Board) (piece : Piece) (row col : Int) (b' : Board) : Prop :=
  b'.length = board.length ∧ boardWidth b' = boardWidth board ∧
    ∀ r c, cellAt b' r c = if CoveredBy piece row col r c then 1 else cellAt board r c

/-- One step of the clearing loops in `clear_lines`: `if grid[r][c] != 0:
grid[r][c] = 0; cells_cleared += 1`. -/
def lineClearStep (acc : Board × Nat) (r c : Nat) : Board × Nat :=
  if cellAt acc.1 r c != 0 then (setCell acc.1 r c 0, acc.2 + 1) else acc

/-- Full row indices of the pre-clear board, in ascending order. -/
def fullRowsList (board : Board) : List Nat :=
  (List.range board.length).filter
    (fun r => (List.range (boardWidth board)).all (fun c => cellAt board r c != 0))

/-- Full column indices of the pre-clear board, in ascending order. -/
def fullColsList (board : Board) : List Nat :=
  (List.range (boardWidth board)).filter
    (fun c => (List.range board.length).all (fun r => cellAt board r c != 0))

/-- `clear_lines` (rules.py): detect full rows and columns on the pre-clear
board, zero them, and count each zeroed cell once. -/
def clear_lines (board : Board) : Board × Nat × Nat × Nat :=
  let height := board.length
  let width := boardWidth board
  let full_rows := fullRowsList board
  let full_cols := fullColsList board
  if full_rows.isEmpty && full_cols.isEmpty then (board, 0, 0, 0)
  else
    let acc1 := full_rows.foldl (fun acc r =>
      (List.range width).foldl (fun acc c => lineClearStep acc r c) acc) (board, 0)
    let acc2 := full_cols.foldl (fun acc c =>
      (List.range height).foldl (fun acc r => lineClearStep acc r c) acc) acc1
    (acc2.1, acc2.2, full_rows.length, full_cols.length)

/-- Clearing pass over an explicit list of (row, col) targets; the nested loops
of `clear_lines` are rewritten to this form for the proofs below. -/
def clearPass (acc : Board × Nat) (ps : List (Nat × Nat)) : Board × Nat :=
  ps.foldl (fun acc p => lineClearStep acc p.1 p.2) acc

/-- Row `r` is full: every cell of it (there are `boardWidth b`) is non-zero. -/
def FullRow (b : Board) (r : Nat) : Prop := ∀ c < boardWidth b, cellAt b r c ≠ 0

/-- Column `c` is full: every cell of it (there are `b.length`) is non-zero. -/
def FullCol (b : Board) (c : Nat) : Prop := ∀ r < b.length, cellAt b r c ≠ 0

instance (b : Board) (r : Nat) : Decidable (FullRow b r) := by
  unfold FullRow
  infer_instance

instance (b : Board) (c : Nat) : Decidable (FullCol b c) := by
  unfold FullCol
  infer_instance

/-- The (row, col) targets of the full-row clearing pass. -/
def rowPairs (b : Board) : List (Nat × Nat) :=
  (fullRowsList b).flatMap (fun r => (List.range (boardWidth b)).map (fun c => (r, c)))

/-- The (row, col) targets of the full-column clearing pass. -/
def colPairs (b : Board) : List (Nat × Nat) :=
  (fullColsList b).flatMap (fun c => (List.range b.length).map (fun r => (r, c)))

/-- `score_delta` (rules.py): placed blocks + cleared cells. -/
def score_delta (piece : Piece) (cleared_cells : Nat) : Nat :=
  piece.block_count + cleared_cells

/-- Python list indexing `xs[i]`: negative indices wrap around; an `IndexError`
is raised only outside `[-len, len)`. -/
def pyGetPiece (xs : List Piece) (i : Int) : Except String Piece :=
  if 0 ≤ i ∧ i < (xs.length : Int) then .ok (xs.getD i.toNat default)
  else if -(xs.length : Int) ≤ i ∧ i < 0 then
    .ok (xs.getD (i + xs.length).toNat default)
  else .error "IndexError: hand index out of range"

/-- Python slice `xs[:stop]`. -/
def pySliceTo (xs : List Piece) (stop : Int) : List Piece :=
  if stop < 0 then xs.take (max 0 ((xs.length : Int) + stop)).toNat
  else xs.take stop.toNat

/-- Python slice `xs[start:]`. -/
def pySliceFrom (xs : List Piece) (start : Int) : List Piece :=
  if start < 0 then xs.drop (max 0 ((xs.length : Int) + start)).toNat
  else xs.drop start.toNat

/-- `simulate_move` (rules.py): select `state.hand[hand_index]` (Python
indexing), place it, clear lines, add the score delta, and rebuild the state
with `hand[:hand_index] + hand[hand_index+1:]`; every Python exception
(IndexError, invalid placement, dataclass validation) surfaces as `.error`. -/
def simulate_move (state : GameState) (hand_index : Int) (row col : Int) :
    Except String (GameState × Nat × Nat × Nat × Nat) := do
  let piece ← pyGetPiece state.hand hand_index
  let placed ← place_piece state.board piece row col 1
  let cleared := clear_lines placed
  let delta := score_delta piece cleared.2.1
  let new_hand := pySliceTo state.hand hand_index ++
    pySliceFrom state.hand (hand_index + 1)
  let new_state ← mkGameState cleared.1 (state.score + delta) new_hand
  return (new_state, delta, cleared.2.1, cleared.2.2.1, cleared.2.2.2)

/-- Sample 1x1 piece (the `single` of the piece catalog). -/
def pSingle : Piece := ⟨"single", [[1]]⟩

/-- Sample 1x2 horizontal piece (the `line2_h` of the piece catalog). -/
def pLine2h : Piece := ⟨"line2_h", [[1, 1]]⟩

/-- Empty 10x10 board (`empty_board(10)`). -/
def board10 : Board := List.replicate 10 (List.replicate 10 0)

/-- Fully occupied 10x10 board. -/
def board10Full : Board := List.replicate 10 (List.replicate 10 1)

/-- Sample state: empty 2x2 board, one `single` in hand. -/
def sample2 : GameState := ⟨[[0, 0], [0, 0]], 0, [pSingle]⟩

/-- The piece Python's `state.hand[hand_index]` selects for an in-range index
(non-negative, or negative with wraparound). -/
def pyPieceAt (xs : List Piece) (i : Int) : Piece :=
  if 0 ≤ i then xs.getD i.toNat default else xs.getD (i + xs.length).toNat default

/-- A move (moves.py): choose hand piece `piece_index`, place it at (row, col). -/
structure Move where
  piece_index : Nat
  row : Int
  col : Int
  deriving Repr, DecidableEq

/-- `legal_moves` (moves.py): for each hand piece in order, scan top-left
positions over the bounding box (rows `0..size_r-height`, cols
`0..size_c-width`, skipping the piece if it cannot fit) and keep the positions
where `can_place` holds; row-major order. -/
def legal_moves (state : GameState) : List Move :=
  let board := state.board
  let size_r := board.length
  let size_c := boardWidth board
  (List.range state.hand.length).flatMap fun piece_index =>
    let piece := state.hand.getD piece_index default
    if size_r < piece.height ∨ size_c < piece.width then []
    else
      (List.range (size_r - piece.height + 1)).flatMap fun row =>
        (List.range (size_c - piece.width + 1)).filterMap fun col =>
          if can_place board piece ((row : Nat) : Int) ((col : Nat) : Int) then
            some ⟨piece_index, (row : Int), (col : Int)⟩
          else none

/-- Strict enumeration order of `legal_moves`: piece index, then row, then
column, each ascending. -/
def moveLt (m1 m2 : Move) : Prop :=
  m1.piece_index < m2.piece_index ∨
    (m1.piece_index = m2.piece_index ∧
      (m1.row < m2.row ∨ (m1.row = m2.row ∧ m1.col < m2.col)))

/-- Heuristic weights (heuristics.py); Python floats are embedded as exact
rationals (0.10 = 1/10, -0.05 = -1/20). -/
structure HeuristicWeights where
  mobility : Rat := 1 / 10
  near_full_lines : Rat := 1
  roughness : Rat := -(1 / 20)
  fragments : Rat := 0
  enclosed_empties : Rat := 0
  deriving Repr, DecidableEq

/-- `DEFAULT_WEIGHTS`. -/
def DEFAULT_WEIGHTS : HeuristicWeights := {}

/-- `mobility` (heuristics.py): count of legal placements across the hand. -/
def mobility (state : GameState) : Nat := (legal_moves state).length

/-- `near_full_lines` (heuristics.py): rows plus columns whose filled-cell
count lies in `[lo, hi]`. -/
def near_full_lines (board : Board) (lo : Nat := 8) (hi : Nat := 9) : Nat :=
  let height := board.length
  let width := boardWidth board
  let score := (List.range height).foldl (fun score r =>
    if lo ≤ (List.range width).countP (fun c => cellAt board r c != 0) ∧
        (List.range width).countP (fun c => cellAt board r c != 0) ≤ hi
    then score + 1 else score) 0
  (List.range width).foldl (fun score c =>
    if lo ≤ (List.range height).countP (fun r => cellAt board r c != 0) ∧
        (List.range height).countP (fun r => cellAt board r c != 0) ≤ hi
    then score + 1 else score) score

/-- `roughness` (heuristics.py): occupied/empty transitions between adjacent
cells along rows and columns. -/
def roughness (board : Board) : Nat :=
  let height := board.length
  let width := boardWidth board
  let t := (List.range height).foldl (fun t r =>
    (List.range (width - 1)).foldl (fun t c =>
      if (cellAt board r c != 0) ≠ (cellAt board r (c + 1) != 0) then t + 1 else t) t) 0
  (List.range width).foldl (fun t c =>
    (List.range (height - 1)).foldl (fun t r =>
      if (cellAt board r c != 0) ≠ (cellAt board (r + 1) c != 0) then t + 1 else t) t) t

/-- Visited/reachable matrix for the flood fills. -/
def visitedGet (v : List (List Bool)) (r c : Nat) : Bool := (v.getD r []).getD c false

/-- Mark a cell in a visited matrix. -/
def visitedSet (v : List (List Bool)) (r c : Nat) : List (List Bool) :=
  v.set r ((v.getD r []).set c true)

/-- 4-neighbourhood of (r, c), in the source's order (up, down, left, right). -/
def neighbors4 (height width r c : Nat) : List (Nat × Nat) :=
  (if 0 < r then [(r - 1, c)] else []) ++
  (if r + 1 < height then [(r + 1, c)] else []) ++
  (if 0 < c then [(r, c - 1)] else []) ++
  (if c + 1 < width then [(r, c + 1)] else [])

/-- One neighbour handling step of the `empty_fragments` BFS: skip visited
cells, mark filled ones, mark and enqueue empty ones. -/
def fragStep (board : Board) (acc : List (List Bool) × List (Nat × Nat))
    (n : Nat × Nat) : List (List Bool) × List (Nat × Nat) :=
  if visitedGet acc.1 n.1 n.2 then acc
  else if cellAt board n.1 n.2 != 0 then (visitedSet acc.1 n.1 n.2, acc.2)
  else (visitedSet acc.1 n.1 n.2, acc.2 ++ [n])

/-- The `empty_fragments` BFS loop. Every enqueue freshly marks a cell, so the
number of pops is at most `height * width + 1` and that much fuel makes the
recursion total without changing the Python loop's behaviour. -/
def fragBFS (board : Board) : Nat → List (Nat × Nat) → List (List Bool) →
    List (List Bool)
  | 0, _, visited => visited
  | _ + 1, [], visited => visited
  | fuel + 1, (r, c) :: q', visited =>
    let res := (neighbors4 board.length (boardWidth board) r c).foldl
      (fragStep board) (visited, q')
    fragBFS board fuel res.2 res.1

/-- `empty_fragments` (heuristics.py): number of 4-connected components of
empty cells, found by a row-major scan with BFS flood fill. -/
def empty_fragments (board : Board) : Nat :=
  let height := board.length
  let width := boardWidth board
  let init : List (List Bool) := List.replicate height (List.replicate width false)
  let res := (List.range height).foldl (fun acc r =>
    (List.range width).foldl (fun acc c =>
      if visitedGet acc.1 r c then acc
      else if cellAt board r c != 0 then (visitedSet acc.1 r c, acc.2)
      else
        (fragBFS board (height * width + 1) [(r, c)] (visitedSet acc.1 r c),
         acc.2 + 1)) acc) (init, 0)
  res.2

/-- `push_if_empty` from `enclosed_empties`: enqueue an unvisited empty cell. -/
def pushIfEmpty (board : Board) (acc : List (List Bool) × List (Nat × Nat))
    (r c : Nat) : List (List Bool) × List (Nat × Nat) :=
  if visitedGet acc.1 r c then acc
  else if cellAt board r c != 0 then acc
  else (visitedSet acc.1 r c, acc.2 ++ [(r, c)])

/-- The `enclosed_empties` BFS loop, fueled like `fragBFS`. -/
def encBFS (board : Board) : Nat → List (Nat × Nat) → List (List Bool) →
    List (List Bool)
  | 0, _, reachable => reachable
  | _ + 1, [], reachable => reachable
  | fuel + 1, (r, c) :: q', reachable =>
    let res := (neighbors4 board.length (boardWidth board) r c).foldl
      (fun acc n => pushIfEmpty board acc n.1 n.2) (reachable, q')
    encBFS board fuel res.2 res.1

/-- `enclosed_empties` (heuristics.py): empty cells not reachable from the
border through empty cells (flood fill seeded from all border empties). -/
def enclosed_empties (board : Board) : Nat :=
  let height := board.length
  let width := boardWidth board
  let init : List (List Bool) := List.replicate height (List.replicate width false)
  let seeded := (List.range width).foldl (fun acc c =>
    pushIfEmpty board (pushIfEmpty board acc 0 c) (height - 1) c) (init, [])
  let seeded := (List.range height).foldl (fun acc r =>
    pushIfEmpty board (pushIfEmpty board acc r 0) r (width - 1)) seeded
  let reachable := encBFS board (height * width + 1) seeded.2 seeded.1
  (List.range height).foldl (fun n r =>
    (List.range width).foldl (fun n c =>
      if cellAt board r c == 0 && !(visitedGet reachable r c) then n + 1 else n) n) 0

/-- `evaluate` (heuristics.py): score plus weighted metrics; the optional
fragment/enclosure metrics are computed only when their weight is non-zero. -/
def evaluate (state : GameState) (weights : HeuristicWeights := DEFAULT_WEIGHTS) :
    Rat :=
  let value : Rat := (state.score : Rat)
  let value := value + weights.mobility * (mobility state : Rat)
  let value := value + weights.near_full_lines * (near_full_lines state.board 8 9 : Rat)
  let value := value + weights.roughness * (roughness state.board : Rat)
  let value := if weights.fragments != 0 then
    value + weights.fragments * (empty_fragments state.board : Rat) else value
  let value := if weights.enclosed_empties != 0 then
    value + weights.enclosed_empties * (enclosed_empties state.board : Rat) else value
  value

/-- `_Node` (beam_search.py): search-arena node with parent index (-1 for the
root), originating move and heuristic value. -/
structure Node where
  state : GameState
  parent : Int
  move : Option Move
  value : Rat
  deriving Repr

instance : Inhabited Node := ⟨⟨default, -1, none, 0⟩⟩

/-- Comparator embedding Python's stable descending sort of candidate indices
by `(value, state.score, -len(state.hand))`: `i` may precede `j` iff key(i) ≥
key(j) lexicographically. -/
def nodeKeyGe (nodes : List Node) (i j : Nat) : Bool :=
  let a := nodes.getD i default
  let b := nodes.getD j default
  decide (b.value < a.value) ||
    (a.value == b.value && (decide (b.state.score < a.state.score) ||
      (a.state.score == b.state.score &&
        decide (-(a.state.hand.length : Int) ≥ -(b.state.hand.length : Int)))))

/-- Python's `max(beam, key=(value, state.score))`: first index with the
maximal key (strict improvement replaces the current best). -/
def maxBy (nodes : List Node) : List Nat → Nat
  | [] => 0
  | i :: rest => rest.foldl (fun best j =>
      let a := nodes.getD best default
      let b := nodes.getD j default
      if decide (a.value < b.value) ||
          (a.value == b.value && decide (a.state.score < b.state.score))
      then j else best) i

/-- The walk of `_reconstruct_moves` from a leaf back to the root, collecting
moves leaf-first; parent indices strictly decrease, so `nodes.length + 1` fuel
is more than the walk can ever use. -/
def reconstructWalk (nodes : List Node) : Nat → Int → List Move
  | 0, _ => []
  | fuel + 1, i =>
    if i == -1 then []
    else
      let node := nodes.getD i.toNat default
      (match node.move with
       | some m => [m]
       | none => []) ++ reconstructWalk nodes fuel node.parent

/-- `_reconstruct_moves` (beam_search.py): walk parent links from the leaf and
reverse into execution order. -/
def reconstructMoves (nodes : List Node) (leaf : Int) : List Move :=
  (reconstructWalk nodes (nodes.length + 1) leaf).reverse

/-- Simulate one enumerated move of a frontier node: append the child node and
its candidate index. -/
def expandMove (w : HeuristicWeights) (idx : Nat) (st : GameState)
    (acc : List Node × List Nat) (mv : Move) : Except String (List Node × List Nat) := do
  let r ← simulate_move st (mv.piece_index : Int) mv.row mv.col
  pure (acc.1 ++ [⟨r.1, (idx : Int), some mv, evaluate r.1 w⟩], acc.2 ++ [acc.1.length])

/-- Expand all legal moves of the frontier node at `idx`. -/
def expandNode (w : HeuristicWeights) (acc : List Node × List Nat) (idx : Nat) :
    Except String (List Node × List Nat) :=
  (legal_moves ((acc.1.getD idx default).state)).foldlM
    (expandMove w idx ((acc.1.getD idx default).state)) acc

/-- One depth step's candidate generation over the whole frontier. -/
def expandBeam (w : HeuristicWeights) (nodes : List Node) (beam : List Nat) :
    Except String (List Node × List Nat) :=
  beam.foldlM (expandNode w) (nodes, [])

/-- The depth loop of `beam_search_best_sequence`: expand, stop early when no
candidate was produced (`break` keeps the previous frontier), else sort
best-first with the deterministic tie-breakers and keep the top `beam_width`. -/
def beamLoop (w : HeuristicWeights) (beam_width : Int) :
    Nat → List Node × List Nat → Except String (List Node × List Nat)
  | 0, acc => .ok acc
  | d + 1, (nodes, beam) => do
    let r ← expandBeam w nodes beam
    if r.2.isEmpty then .ok (r.1, beam)
    else
      beamLoop w beam_width d (r.1, (r.2.mergeSort (nodeKeyGe r.1)).take beam_width.toNat)

/-- `beam_search_best_sequence` (beam_search.py). -/
def beam_search_best_sequence (initial : GameState) (beam_width : Int := 25)
    (depth : Option Int := none)
    (weights : HeuristicWeights := DEFAULT_WEIGHTS) : Except String (List Move) :=
  if beam_width ≤ 0 then .error "beam_width must be >= 1"
  else
    let max_depth : Int := match depth with
      | none => (initial.hand.length : Int)
      | some d => d
    if max_depth < 0 then .error "depth must be >= 0"
    else
      (beamLoop weights beam_width max_depth.toNat
        ([⟨initial, -1, none, evaluate initial weights⟩], [0])).map
        (fun r => reconstructMoves r.1 ((maxBy r.1 r.2 : Nat) : Int))

/-- `select_best_move` (beam_search.py): first move of the best sequence, if
any. -/
def select_best_move (initial : GameState) (beam_width : Int := 25)
    (depth : Option Int := none)
    (weights : HeuristicWeights := DEFAULT_WEIGHTS) : Except String (Option Move) :=
  (beam_search_best_sequence initial beam_width depth weights).map
    (fun seq => seq.head?)

/-- A move is immediately legal in a state: index in range and `can_place`. -/
def moveLegal (s : GameState) (m : Move) : Bool :=
  decide (m.piece_index < s.hand.length) &&
    can_place s.board (s.hand.getD m.piece_index default) m.row m.col

/-- Run a move sequence, checking immediate legality at every step
(sequential legality); `none` when some move is illegal. -/
def runSeq (s : GameState) : List Move → Option GameState
  | [] => some s
  | m :: rest =>
    if moveLegal s m then
      match simulate_move s (m.piece_index : Int) m.row m.col with
      | .ok r => runSeq r.1 rest
      | .error _ => none
    else none

/-- Structural invariant of a single arena node: the root wraps the initial
state; every other node was produced by simulating a move that was immediately
legal in its parent's state. -/
def NodeOK (initial : GameState) (nodes : List Node) (k : Nat) : Prop :=
  (k = 0 → (nodes.getD 0 default).parent = -1 ∧ (nodes.getD 0 default).move = none ∧
    (nodes.getD 0 default).state = initial) ∧
  (0 < k → ∃ p : Nat, p < k ∧ (nodes.getD k default).parent = (p : Int) ∧
    ∃ m, (nodes.getD k default).move = some m ∧
      moveLegal (nodes.getD p default).state m = true ∧
      ∃ r, simulate_move (nodes.getD p default).state (m.piece_index : Int) m.row m.col
        = .ok r ∧ r.1 = (nodes.getD k default).state)

/-- Structural invariant of the whole arena. -/
def ArenaOK (initial : GameState) (nodes : List Node) : Prop :=
  0 < nodes.length ∧ (∀ k, k < nodes.length → NodeOK initial nodes k) ∧
  (∀ k, k < nodes.length → validState (nodes.getD k default).state = true)

/-- Invariant carried by the candidate-generation fold of one depth step. -/
def ExpandInv (initial : GameState) (nodes0 : List Node)
    (acc : List Node × List Nat) : Prop :=
  ArenaOK initial acc.1 ∧ nodes0.length ≤ acc.1.length ∧
  (∀ k, k < nodes0.length → acc.1.getD k default = nodes0.getD k default) ∧
  (∀ i ∈ acc.2, nodes0.length ≤ i ∧ i < acc.1.length)

theorem can_place_iff (board : Board) (piece : Piece) (row col : Int) :
    can_place board piece row col = true ↔ PlacementFits board piece row col := by
  unfold can_place PlacementFits
  simp only [List.all_eq_true, List.mem_range]
  constructor
  · intro h i j hi hj hocc
    have := h i hi j hj
    simp only [hocc] at this
    simp only [bne_self_eq_false, Bool.false_eq_true, if_false, Bool.and_eq_true,
      decide_eq_true_eq, beq_iff_eq] at this
    exact ⟨this.1.1.1.1, this.1.1.1.2, this.1.1.2, this.1.2, this.2⟩
  · intro h i hi j hj
    by_cases hocc : (piece.shape.getD i []).getD j 0 = 1
    · obtain ⟨h1, h2, h3, h4, h5⟩ := h i j hi hj hocc
      simp [hocc, h1, h2, h3, h4, h5]
    · simp only [bne_iff_ne, ne_eq, hocc, not_false_eq_true, if_true]

theorem length_setCell (b : Board) (r c v : Nat) : (setCell b r c v).length = b.length :=
  List.length_set ..

theorem getD_setCell_row (b : Board) (r c v r' : Nat) :
    (setCell b r c v).getD r' [] =
      if r' = r ∧ r < b.length then (b.getD r []).set c v else b.getD r' [] := by
  unfold setCell
  by_cases h : r' = r
  · subst h
    by_cases hlt : r' < b.length
    · simp [List.getD, List.getElem?_set, hlt]
    · have hle := Nat.le_of_not_lt hlt
      simp [List.getD, List.set_eq_of_length_le hle, List.getElem?_eq_none hle]
  · have h' : r ≠ r' := fun hh => h hh.symm
    simp [List.getD, List.getElem?_set, h, h']

theorem rowlen_setCell (b : Board) (r c v r' : Nat) :
    ((setCell b r c v).getD r' []).length = (b.getD r' []).length := by
  rw [getD_setCell_row]
  by_cases h : r' = r ∧ r < b.length
  · simp [h, h.1]
  · simp [h]

theorem cellAt_setCell (b : Board) (r c v r' c' : Nat)
    (hr : r < b.length) (hc : c < (b.getD r []).length) :
    cellAt (setCell b r c v) r' c' =
      if r' = r ∧ c' = c then v else cellAt b r' c' := by
  unfold cellAt
  rw [getD_setCell_row]
  by_cases h1 : r' = r
  · subst h1
    simp only [hr, and_true, if_pos rfl, true_and]
    simp only [List.getD, List.get?_eq_getElem?] at hc ⊢
    by_cases h2 : c' = c
    · subst h2
      simp [List.getElem?_set, hc]
    · have h2' : c ≠ c' := fun hh => h2 hh.symm
      simp [List.getElem?_set, h2, h2']
  · simp [h1]

theorem placeGrid_eq_innerPass (piece : Piece) (row col : Int) (value : Nat)
    (board : Board) :
    placeGrid piece row col value board =
      (List.range piece.height).foldl
        (fun g i => innerPass piece row col value i g (List.range piece.width)) board := rfl

theorem innerPass_length (piece : Piece) (row col : Int) (value : Nat) (i : Nat)
    (g : Board) (js : List Nat) :
    (innerPass piece row col value i g js).length = g.length := by
  induction js generalizing g with
  | nil => rfl
  | cons j js ih =>
    unfold innerPass
    simp only [List.foldl_cons]
    by_cases hocc : (piece.shape.getD i []).getD j 0 == 1
    · rw [if_pos hocc]
      rw [show ∀ g', js.foldl _ g' = innerPass piece row col value i g' js from fun _ => rfl, ih,
        length_setCell]
    · rw [if_neg hocc]
      exact ih g

theorem innerPass_rowlen (piece : Piece) (row col : Int) (value : Nat) (i : Nat)
    (g : Board) (js : List Nat) (r' : Nat) :
    ((innerPass piece row col value i g js).getD r' []).length = ((g.getD r' [])).length := by
  induction js generalizing g with
  | nil => rfl
  | cons j js ih =>
    unfold innerPass
    simp only [List.foldl_cons]
    by_cases hocc : (piece.shape.getD i []).getD j 0 == 1
    · rw [if_pos hocc]
      rw [show ∀ g', js.foldl _ g' = innerPass piece row col value i g' js from fun _ => rfl, ih,
        rowlen_setCell]
    · rw [if_neg hocc]
      exact ih g

theorem cellAt_innerPass (piece : Piece) (row col : Int) (value : Nat) (i : Nat)
    (js : List Nat) (g : Board) (r c : Nat)
    (hb : ∀ j ∈ js, (piece.shape.getD i []).getD j 0 = 1 →
      (row + i).toNat < g.length ∧ (col + j).toNat < (g.getD (row + i).toNat []).length) :
    cellAt (innerPass piece row col value i g js) r c =
      if ∃ j ∈ js, (piece.shape.getD i []).getD j 0 = 1 ∧
          (row + i).toNat = r ∧ (col + j).toNat = c then value
      else cellAt g r c := by
  induction js generalizing g with
  | nil => simp [innerPass]
  | cons j js ih =>
    unfold innerPass
    simp only [List.foldl_cons]
    rw [show ∀ g', js.foldl _ g' = innerPass piece row col value i g' js from fun _ => rfl]
    by_cases hocc : (piece.shape.getD i []).getD j 0 = 1
    · rw [if_pos (by simpa [List.getD] using hocc)]
      obtain ⟨hr, hc⟩ := hb j (by simp) hocc
      rw [ih _ (fun j' hj' hocc' => by
        rw [length_setCell, rowlen_setCell]
        exact hb j' (List.mem_cons_of_mem _ hj') hocc')]
      rw [cellAt_setCell _ _ _ _ _ _ hr hc]
      by_cases hjs : ∃ j' ∈ js, (piece.shape.getD i []).getD j' 0 = 1 ∧
          (row + i).toNat = r ∧ (col + j').toNat = c
      · rw [if_pos hjs, if_pos]
        obtain ⟨j', hj', h1, h2, h3⟩ := hjs
        exact ⟨j', List.mem_cons_of_mem _ hj', h1, h2, h3⟩
      · rw [if_neg hjs]
        by_cases hhit : r = (row + i).toNat ∧ c = (col + j).toNat
        · rw [if_pos hhit, if_pos ⟨j, List.mem_cons_self _ _, hocc, hhit.1.symm, hhit.2.symm⟩]
        · rw [if_neg hhit, if_neg]
          intro hany
          obtain ⟨j', hj', h1, h2, h3⟩ := hany
          rcases List.mem_cons.mp hj' with hj0 | hjmem
          · exact hhit ⟨h2.symm, by rw [← h3, hj0]⟩
          · exact hjs ⟨j', hjmem, h1, h2, h3⟩
    · rw [if_neg (by simpa [List.getD] using hocc)]
      rw [ih _ (fun j' hj' hocc' => hb j' (List.mem_cons_of_mem _ hj') hocc')]
      by_cases hjs : ∃ j' ∈ js, (piece.shape.getD i []).getD j' 0 = 1 ∧
          (row + i).toNat = r ∧ (col + j').toNat = c
      · obtain ⟨j', hj', h1, h2, h3⟩ := hjs
        rw [if_pos ⟨j', hj', h1, h2, h3⟩,
          if_pos ⟨j', List.mem_cons_of_mem _ hj', h1, h2, h3⟩]
      · rw [if_neg hjs, if_neg]
        intro hany
        obtain ⟨j', hj', h1, h2, h3⟩ := hany
        rcases List.mem_cons.mp hj' with hj0 | hjmem
        · exact hocc (hj0 ▸ h1)
        · exact hjs ⟨j', hjmem, h1, h2, h3⟩

theorem outerPass_length (piece : Piece) (row col : Int) (value : Nat)
    (is : List Nat) (g : Board) :
    (is.foldl (fun g i => innerPass piece row col value i g (List.range piece.width)) g).length
      = g.length := by
  induction is generalizing g with
  | nil => rfl
  | cons i is ih =>
    simp only [List.foldl_cons]
    rw [ih, innerPass_length]

theorem outerPass_rowlen (piece : Piece) (row col : Int) (value : Nat)
    (is : List Nat) (g : Board) (r' : Nat) :
    ((is.foldl (fun g i => innerPass piece row col value i g (List.range piece.width)) g).getD
        r' []).length = (g.getD r' []).length := by
  induction is generalizing g with
  | nil => rfl
  | cons i is ih =>
    simp only [List.foldl_cons]
    rw [ih, innerPass_rowlen]

theorem cellAt_outerPass (piece : Piece) (row col : Int) (value : Nat)
    (is : List Nat) (g : Board) (r c : Nat)
    (hb : ∀ i ∈ is, ∀ j, j < piece.width → (piece.shape.getD i []).getD j 0 = 1 →
      (row + i).toNat < g.length ∧ (col + j).toNat < (g.getD (row + i).toNat []).length) :
    cellAt (is.foldl (fun g i => innerPass piece row col value i g (List.range piece.width)) g)
        r c =
      if ∃ i ∈ is, ∃ j, j < piece.width ∧ (piece.shape.getD i []).getD j 0 = 1 ∧
          (row + i).toNat = r ∧ (col + j).toNat = c then value
      else cellAt g r c := by
  induction is generalizing g with
  | nil => simp
  | cons i is ih =>
    simp only [List.foldl_cons]
    rw [ih _ (fun i' hi' j hj hocc => by
      rw [innerPass_length, innerPass_rowlen]
      exact hb i' (List.mem_cons_of_mem _ hi') j hj hocc)]
    rw [cellAt_innerPass _ _ _ _ _ _ _ _ _ (fun j hj hocc =>
      hb i (List.mem_cons_self _ _) j (List.mem_range.mp hj) hocc)]
    by_cases his : ∃ i' ∈ is, ∃ j, j < piece.width ∧ (piece.shape.getD i' []).getD j 0 = 1 ∧
        (row + i').toNat = r ∧ (col + j).toNat = c
    · rw [if_pos his, if_pos]
      obtain ⟨i', hi', j, hj, h1, h2, h3⟩ := his
      exact ⟨i', List.mem_cons_of_mem _ hi', j, hj, h1, h2, h3⟩
    · rw [if_neg his]
      by_cases hme : ∃ j ∈ List.range piece.width, (piece.shape.getD i []).getD j 0 = 1 ∧
          (row + i).toNat = r ∧ (col + j).toNat = c
      · rw [if_pos hme, if_pos]
        obtain ⟨j, hj, h1, h2, h3⟩ := hme
        exact ⟨i, List.mem_cons_self _ _, j, List.mem_range.mp hj, h1, h2, h3⟩
      · rw [if_neg hme, if_neg]
        intro hany
        obtain ⟨i', hi', j, hj, h1, h2, h3⟩ := hany
        rcases List.mem_cons.mp hi' with hi0 | himem
        · exact hme ⟨j, List.mem_range.mpr hj, by rw [hi0] at h1 h2; exact ⟨h1, h2, h3⟩⟩
        · exact his ⟨i', himem, j, hj, h1, h2, h3⟩

theorem rowlen_of_validBoard {b : Board} (hb : validBoard b = true) {r : Nat}
    (hr : r < b.length) : (b.getD r []).length = boardWidth b := by
  unfold validBoard at hb
  simp only [Bool.and_eq_true, List.all_eq_true, decide_eq_true_eq, beq_iff_eq] at hb
  have hval : b.getD r [] = b[r] := by
    simp [List.getD, List.get?_eq_getElem?, List.getElem?_eq_getElem hr]
  rw [hval]
  exact hb.2 _ (List.getElem_mem hr)

theorem cellAt_placeGrid (board : Board) (piece : Piece) (row col : Int) (value : Nat)
    (hcan : can_place board piece row col = true) (hb : validBoard board = true)
    (r c : Nat) :
    cellAt (placeGrid piece row col value board) r c =
      if CoveredBy piece row col r c then value else cellAt board r c := by
  have hfit := (can_place_iff board piece row col).mp hcan
  rw [placeGrid_eq_innerPass]
  rw [cellAt_outerPass _ _ _ _ _ _ _ _ (fun i hi j hj hocc => by
    obtain ⟨h1, h2, h3, h4, h5⟩ := hfit i j (List.mem_range.mp hi) hj hocc
    refine ⟨by omega, ?_⟩
    rw [rowlen_of_validBoard hb (by omega)]
    omega)]
  have hiff : (∃ i ∈ List.range piece.height, ∃ j, j < piece.width ∧
      (piece.shape.getD i []).getD j 0 = 1 ∧ (row + i).toNat = r ∧ (col + j).toNat = c) ↔
      CoveredBy piece row col r c := by
    constructor
    · intro ⟨i, hi, j, hj, h1, h2, h3⟩
      obtain ⟨b1, b2, b3, b4, b5⟩ := hfit i j (List.mem_range.mp hi) hj h1
      exact ⟨i, List.mem_range.mp hi, j, hj, h1, by omega, by omega⟩
    · intro ⟨i, hi, j, hj, h1, h2, h3⟩
      obtain ⟨b1, b2, b3, b4, b5⟩ := hfit i j hi hj h1
      exact ⟨i, List.mem_range.mpr hi, j, hj, h1, by omega, by omega⟩
  rw [if_congr hiff rfl rfl]

theorem placeGrid_length (piece : Piece) (row col : Int) (value : Nat) (board : Board) :
    (placeGrid piece row col value board).length = board.length := by
  rw [placeGrid_eq_innerPass, outerPass_length]

theorem placeGrid_rowlen (piece : Piece) (row col : Int) (value : Nat) (board : Board)
    (r' : Nat) :
    ((placeGrid piece row col value board).getD r' []).length = (board.getD r' []).length := by
  rw [placeGrid_eq_innerPass, outerPass_rowlen]

/-- C9: `place_piece` fails with `Invalid placement` exactly when `can_place` is
false (no silent clipping), and otherwise returns a new board holding the
non-zero fill value 1 at every covered cell and the input board's value
everywhere else. -/
theorem place_piece_correct (board : Board) (piece : Piece) (row col : Int)
    (hb : validBoard board = true) :
    (can_place board piece row col = false →
      place_piece board piece row col 1 = .error "Invalid placement") ∧
    (can_place board piece row col = true →
      ∃ b', place_piece board piece row col 1 = .ok b' ∧
        PlaceResultSpec board piece row col b') := by
  constructor
  · intro h
    unfold place_piece
    rw [h]
    rfl
  · intro h
    refine ⟨placeGrid piece row col 1 board, ?_, ?_, ?_, ?_⟩
    · unfold place_piece
      rw [h]
      rfl
    · exact placeGrid_length ..
    · unfold boardWidth
      exact placeGrid_rowlen ..
    · intro r c
      exact cellAt_placeGrid board piece row col 1 h hb r c

theorem place_piece_correct_witness :
    validBoard ([[0, 0], [0, 0]] : Board) = true ∧
      ((can_place [[0, 0], [0, 0]] ⟨"single", [[1]]⟩ 0 0 = false →
        place_piece [[0, 0], [0, 0]] ⟨"single", [[1]]⟩ 0 0 1 = .error "Invalid placement") ∧
       (can_place [[0, 0], [0, 0]] ⟨"single", [[1]]⟩ 0 0 = true →
        ∃ b', place_piece [[0, 0], [0, 0]] ⟨"single", [[1]]⟩ 0 0 1 = .ok b' ∧
          PlaceResultSpec [[0, 0], [0, 0]] ⟨"single", [[1]]⟩ 0 0 b')) :=
  ⟨by decide, place_piece_correct [[0, 0], [0, 0]] ⟨"single", [[1]]⟩ 0 0 (by decide)⟩

theorem foldl_flatMap_eq {α β γ : Type} (l : List α) (f : α → List β) (g : γ → β → γ)
    (a : γ) : (l.flatMap f).foldl g a = l.foldl (fun a x => (f x).foldl g a) a := by
  induction l generalizing a with
  | nil => rfl
  | cons x xs ih => simp [List.flatMap_cons, List.foldl_append, ih]

theorem rowsPass_eq_clearPass (width : Nat) (rows : List Nat)
    (acc : Board × Nat) :
    rows.foldl (fun acc r =>
        (List.range width).foldl (fun acc c => lineClearStep acc r c) acc) acc =
      clearPass acc (rows.flatMap (fun r => (List.range width).map (fun c => (r, c)))) := by
  unfold clearPass
  rw [foldl_flatMap_eq]
  simp only [List.foldl_map]

theorem colsPass_eq_clearPass (height : Nat) (cols : List Nat)
    (acc : Board × Nat) :
    cols.foldl (fun acc c =>
        (List.range height).foldl (fun acc r => lineClearStep acc r c) acc) acc =
      clearPass acc (cols.flatMap (fun c => (List.range height).map (fun r => (r, c)))) := by
  unfold clearPass
  rw [foldl_flatMap_eq]
  simp only [List.foldl_map]

theorem cellAt_pos_bounds {b : Board} {r c : Nat} (h : cellAt b r c ≠ 0) :
    r < b.length ∧ c < (b.getD r []).length := by
  constructor
  · by_contra hr
    apply h
    unfold cellAt
    simp [List.getD, List.get?_eq_getElem?, List.getElem?_eq_none (Nat.le_of_not_lt hr)]
  · by_contra hc
    apply h
    unfold cellAt
    simp only [List.getD, List.get?_eq_getElem?] at hc
    simp [List.getD, List.get?_eq_getElem?, List.getElem?_eq_none (Nat.le_of_not_lt hc)]

theorem cellAt_setCell_ne (b : Board) (r c v r' c' : Nat) (h : ¬(r' = r ∧ c' = c)) :
    cellAt (setCell b r c v) r' c' = cellAt b r' c' := by
  unfold cellAt
  rw [getD_setCell_row]
  by_cases h1 : r' = r
  · subst h1
    by_cases h2 : r' < b.length
    · simp only [h2, and_true, if_pos rfl, true_and]
      have hc : ¬ c' = c := fun hh => h ⟨rfl, hh⟩
      have hc' : c ≠ c' := fun hh => hc hh.symm
      simp [List.getD, List.getElem?_set, hc']
    · simp [h2]
  · simp [h1]

theorem clearPass_fst_length (ps : List (Nat × Nat)) (acc : Board × Nat) :
    (clearPass acc ps).1.length = acc.1.length := by
  induction ps generalizing acc with
  | nil => rfl
  | cons p ps ih =>
    unfold clearPass at ih ⊢
    simp only [List.foldl_cons]
    rw [ih]
    unfold lineClearStep
    by_cases h : cellAt acc.1 p.1 p.2 != 0
    · rw [if_pos h, length_setCell]
    · rw [if_neg h]

theorem clearPass_fst_rowlen (ps : List (Nat × Nat)) (acc : Board × Nat) (r' : Nat) :
    ((clearPass acc ps).1.getD r' []).length = (acc.1.getD r' []).length := by
  induction ps generalizing acc with
  | nil => rfl
  | cons p ps ih =>
    unfold clearPass at ih ⊢
    simp only [List.foldl_cons]
    rw [ih]
    unfold lineClearStep
    by_cases h : cellAt acc.1 p.1 p.2 != 0
    · rw [if_pos h, rowlen_setCell]
    · rw [if_neg h]

theorem cellAt_clearPass (ps : List (Nat × Nat)) (acc : Board × Nat) (r c : Nat) :
    cellAt (clearPass acc ps).1 r c =
      if (r, c) ∈ ps then 0 else cellAt acc.1 r c := by
  induction ps generalizing acc with
  | nil => simp [clearPass]
  | cons p ps ih =>
    unfold clearPass at ih ⊢
    simp only [List.foldl_cons]
    rw [ih]
    unfold lineClearStep
    by_cases hmem : (r, c) ∈ ps
    · rw [if_pos hmem, if_pos (List.mem_cons_of_mem _ hmem)]
    · rw [if_neg hmem]
      by_cases hhit : r = p.1 ∧ c = p.2
      · have hp : (r, c) ∈ p :: ps := by
          rw [show p = (r, c) from by rw [Prod.ext_iff]; exact ⟨hhit.1.symm, hhit.2.symm⟩]
          exact List.mem_cons_self _ _
        rw [if_pos hp]
        by_cases hz : cellAt acc.1 p.1 p.2 != 0
        · rw [if_pos hz]
          obtain ⟨hr, hc⟩ := cellAt_pos_bounds (by simpa using hz)
          rw [cellAt_setCell _ _ _ _ _ _ hr hc, if_pos ⟨hhit.1, hhit.2⟩]
        · rw [if_neg hz]
          rw [hhit.1, hhit.2]
          simpa using hz
      · have hnp : (r, c) ∉ p :: ps := by
          intro hmem'
          rcases List.mem_cons.mp hmem' with h0 | hmem''
          · exact hhit ⟨congrArg Prod.fst h0, congrArg Prod.snd h0⟩
          · exact hmem hmem''
        rw [if_neg hnp]
        by_cases hz : cellAt acc.1 p.1 p.2 != 0
        · rw [if_pos hz, cellAt_setCell_ne _ _ _ _ _ _ hhit]
        · rw [if_neg hz]

theorem clearPass_snd (ps : List (Nat × Nat)) (acc : Board × Nat) (hnd : ps.Nodup) :
    (clearPass acc ps).2 = acc.2 + ps.countP (fun p => cellAt acc.1 p.1 p.2 != 0) := by
  induction ps generalizing acc with
  | nil => simp [clearPass]
  | cons p ps ih =>
    have hnd' := (List.nodup_cons.mp hnd).2
    have hnmem := (List.nodup_cons.mp hnd).1
    unfold clearPass at ih ⊢
    simp only [List.foldl_cons]
    rw [show lineClearStep acc p.1 p.2 =
      if cellAt acc.1 p.1 p.2 != 0 then (setCell acc.1 p.1 p.2 0, acc.2 + 1) else acc from rfl]
    by_cases hz : cellAt acc.1 p.1 p.2 != 0
    · rw [if_pos hz, ih _ hnd']
      have hcong : ps.countP
          (fun q => cellAt (setCell acc.1 p.1 p.2 0, acc.2 + 1).1 q.1 q.2 != 0) =
          ps.countP (fun q => cellAt acc.1 q.1 q.2 != 0) := by
        apply List.countP_congr
        intro q hq
        have hne : ¬(q.1 = p.1 ∧ q.2 = p.2) := by
          intro hh
          apply hnmem
          rw [show p = q from by rw [Prod.ext_iff]; exact ⟨hh.1.symm, hh.2.symm⟩]
          exact hq
        constructor
        · intro hq'
          simpa [cellAt_setCell_ne _ _ _ _ _ _ hne] using hq'
        · intro hq'
          simpa [cellAt_setCell_ne _ _ _ _ _ _ hne] using hq'
      rw [hcong, List.countP_cons, if_pos hz]
      omega
    · rw [if_neg hz, ih _ hnd', List.countP_cons, if_neg hz]
      omega

theorem cellAt_row_oob {b : Board} {r : Nat} (c : Nat) (h : b.length ≤ r) :
    cellAt b r c = 0 := by
  unfold cellAt
  simp [List.getD, List.get?_eq_getElem?, List.getElem?_eq_none h]

theorem cellAt_col_oob {b : Board} (hb : validBoard b = true) {r c : Nat}
    (h : boardWidth b ≤ c) : cellAt b r c = 0 := by
  by_cases hr : r < b.length
  · unfold cellAt
    have hw := rowlen_of_validBoard hb hr
    have hlen : (List.getD b r []).length ≤ c := by
      rw [hw]
      exact h
    simp only [List.getD, List.get?_eq_getElem?] at hlen
    simp [List.getD, List.get?_eq_getElem?, List.getElem?_eq_none hlen]
  · exact cellAt_row_oob c (Nat.le_of_not_lt hr)

theorem boardWidth_pos {b : Board} (hb : validBoard b = true) : 0 < boardWidth b := by
  unfold validBoard at hb
  simp only [Bool.and_eq_true, decide_eq_true_eq] at hb
  exact hb.1.2

theorem length_pos_of_validBoard {b : Board} (hb : validBoard b = true) : 0 < b.length := by
  unfold validBoard at hb
  simp only [Bool.and_eq_true, decide_eq_true_eq] at hb
  exact hb.1.1

theorem FullRow_lt {b : Board} (hb : validBoard b = true) {r : Nat} (h : FullRow b r) :
    r < b.length := by
  by_contra hr
  exact h 0 (boardWidth_pos hb) (cellAt_row_oob 0 (Nat.le_of_not_lt hr))

theorem FullCol_lt {b : Board} (hb : validBoard b = true) {c : Nat} (h : FullCol b c) :
    c < boardWidth b := by
  by_contra hc
  exact h 0 (length_pos_of_validBoard hb) (cellAt_col_oob hb (Nat.le_of_not_lt hc))

theorem mem_fullRowsList (b : Board) (r : Nat) :
    r ∈ fullRowsList b ↔ r < b.length ∧ FullRow b r := by
  unfold fullRowsList FullRow
  simp [List.mem_filter, List.mem_range, List.all_eq_true, bne_iff_ne]

theorem mem_fullColsList (b : Board) (c : Nat) :
    c ∈ fullColsList b ↔ c < boardWidth b ∧ FullCol b c := by
  unfold fullColsList FullCol
  simp [List.mem_filter, List.mem_range, List.all_eq_true, bne_iff_ne]

theorem nodup_fullRowsList (b : Board) : (fullRowsList b).Nodup :=
  (List.nodup_range _).filter _

theorem nodup_fullColsList (b : Board) : (fullColsList b).Nodup :=
  (List.nodup_range _).filter _

theorem length_fullRowsList (b : Board) :
    (fullRowsList b).length =
      (List.range b.length).countP (fun r => decide (FullRow b r)) := by
  unfold fullRowsList
  rw [← List.countP_eq_length_filter]
  apply List.countP_congr
  intro r _
  simp [List.all_eq_true, bne_iff_ne, FullRow]

theorem length_fullColsList (b : Board) :
    (fullColsList b).length =
      (List.range (boardWidth b)).countP (fun c => decide (FullCol b c)) := by
  unfold fullColsList
  rw [← List.countP_eq_length_filter]
  apply List.countP_congr
  intro c _
  simp [List.all_eq_true, bne_iff_ne, FullCol]

theorem mem_rowPairs (b : Board) (r c : Nat) :
    (r, c) ∈ rowPairs b ↔ r ∈ fullRowsList b ∧ c < boardWidth b := by
  unfold rowPairs
  simp only [List.mem_flatMap, List.mem_map, List.mem_range, Prod.mk.injEq]
  constructor
  · intro ⟨r', hr', c', hc', h1, h2⟩
    exact ⟨h1 ▸ hr', h2 ▸ hc'⟩
  · intro ⟨hr, hc⟩
    exact ⟨r, hr, c, hc, rfl, rfl⟩

theorem mem_colPairs (b : Board) (r c : Nat) :
    (r, c) ∈ colPairs b ↔ c ∈ fullColsList b ∧ r < b.length := by
  unfold colPairs
  simp only [List.mem_flatMap, List.mem_map, List.mem_range, Prod.mk.injEq]
  constructor
  · intro ⟨c', hc', r', hr', h1, h2⟩
    exact ⟨h2 ▸ hc', h1 ▸ hr'⟩
  · intro ⟨hc, hr⟩
    exact ⟨c, hc, r, hr, rfl, rfl⟩

theorem nodup_rowPairs (b : Board) : (rowPairs b).Nodup := by
  unfold rowPairs
  rw [List.nodup_flatMap]
  refine ⟨fun r _ => ?_, ?_⟩
  · exact (List.nodup_range _).map (fun a b h => (Prod.mk.injEq .. ▸ h : _ ∧ _).2)
  · apply List.Pairwise.imp ?_ (nodup_fullRowsList b)
    intro r1 r2 hne p hp1 hp2
    simp only [List.mem_map, List.mem_range] at hp1 hp2
    obtain ⟨c1, _, h1⟩ := hp1
    obtain ⟨c2, _, h2⟩ := hp2
    exact hne ((congrArg Prod.fst h1).trans (congrArg Prod.fst h2).symm)

theorem nodup_colPairs (b : Board) : (colPairs b).Nodup := by
  unfold colPairs
  rw [List.nodup_flatMap]
  refine ⟨fun c _ => ?_, ?_⟩
  · exact (List.nodup_range _).map (fun a b h => (Prod.mk.injEq .. ▸ h : _ ∧ _).1)
  · apply List.Pairwise.imp ?_ (nodup_fullColsList b)
    intro c1 c2 hne p hp1 hp2
    simp only [List.mem_map, List.mem_range] at hp1 hp2
    obtain ⟨r1, _, h1⟩ := hp1
    obtain ⟨r2, _, h2⟩ := hp2
    exact hne ((congrArg Prod.snd h1).trans (congrArg Prod.snd h2).symm)

theorem countP_flatMap {α β : Type} (l : List α) (f : α → List β) (p : β → Bool) :
    (l.flatMap f).countP p = (l.map (fun x => (f x).countP p)).sum := by
  induction l with
  | nil => rfl
  | cons x xs ih => simp [List.flatMap_cons, List.countP_append, ih]

theorem sum_map_const {α : Type} (l : List α) (w : Nat) :
    (l.map (fun _ => w)).sum = l.length * w := by
  induction l with
  | nil => simp
  | cons x xs ih =>
    simp only [List.map_cons, List.sum_cons, List.length_cons, ih]
    ring

theorem countP_not_mem_range {R : List Nat} {H : Nat} (hsub : ∀ r ∈ R, r < H)
    (hnd : R.Nodup) :
    (List.range H).countP (fun r => !(decide (r ∈ R))) = H - R.length := by
  have hmem : (List.range H).countP (fun r => decide (r ∈ R)) = R.length := by
    rw [List.countP_eq_length_filter]
    have h1 : ((List.range H).filter (fun r => decide (r ∈ R))).Nodup :=
      (List.nodup_range _).filter _
    have hfe : ((List.range H).filter (fun r => decide (r ∈ R))).toFinset = R.toFinset := by
      ext x
      simp only [List.mem_toFinset, List.mem_filter, List.mem_range, decide_eq_true_eq]
      exact ⟨fun h => h.2, fun h => ⟨hsub x h, h⟩⟩
    have hc1 := List.toFinset_card_of_nodup h1
    have hc2 := List.toFinset_card_of_nodup hnd
    rw [hfe] at hc1
    omega
  have htot := List.length_eq_countP_add_countP (p := fun r => decide (r ∈ R))
    (l := List.range H)
  rw [List.length_range, hmem] at htot
  have hcong : (List.range H).countP (fun a => decide ¬((fun r => decide (r ∈ R)) a = true)) =
      (List.range H).countP (fun r => !(decide (r ∈ R))) := by
    apply List.countP_congr
    intro a _
    simp
  rw [hcong] at htot
  omega

theorem clear_lines_eq (b : Board) :
    clear_lines b =
      if (fullRowsList b).isEmpty && (fullColsList b).isEmpty then (b, 0, 0, 0)
      else
        ((clearPass (clearPass (b, 0) (rowPairs b)) (colPairs b)).1,
         (clearPass (clearPass (b, 0) (rowPairs b)) (colPairs b)).2,
         (fullRowsList b).length, (fullColsList b).length) := by
  unfold clear_lines
  by_cases h : (fullRowsList b).isEmpty && (fullColsList b).isEmpty
  · rw [if_pos h, if_pos h]
  · rw [if_neg h, if_neg h]
    simp only [rowsPass_eq_clearPass, colsPass_eq_clearPass]
    rfl

theorem getD_eq_getElem_of_lt {α : Type} [Inhabited α] (l : List α) (d : α) {i : Nat}
    (h : i < l.length) : l.getD i d = l[i] := by
  simp [List.getD, List.get?_eq_getElem?, List.getElem?_eq_getElem h]

theorem validBoard_of_preserved {b b' : Board} (hb : validBoard b = true)
    (hlen : b'.length = b.length)
    (hrl : ∀ r', (b'.getD r' []).length = (b.getD r' []).length) :
    validBoard b' = true := by
  have hw : boardWidth b' = boardWidth b := hrl 0
  unfold validBoard
  simp only [Bool.and_eq_true, decide_eq_true_eq, List.all_eq_true, beq_iff_eq]
  refine ⟨⟨?_, ?_⟩, ?_⟩
  · rw [hlen]
    exact length_pos_of_validBoard hb
  · rw [hw]
    exact boardWidth_pos hb
  · intro x hx
    obtain ⟨i, hi, hix⟩ := List.mem_iff_getElem.mp hx
    have : x = b'.getD i [] := by rw [getD_eq_getElem_of_lt _ _ hi, hix]
    rw [this, hrl i, hw]
    exact rowlen_of_validBoard hb (by rw [← hlen]; exact hi)

theorem clear_lines_of_no_full (b : Board)
    (hR : ∀ r < b.length, ¬ FullRow b r) (hC : ∀ c < boardWidth b, ¬ FullCol b c) :
    clear_lines b = (b, 0, 0, 0) := by
  rw [clear_lines_eq]
  rw [if_pos]
  rw [Bool.and_eq_true, List.isEmpty_iff, List.isEmpty_iff]
  constructor
  · rw [List.eq_nil_iff_forall_not_mem]
    intro r hr
    obtain ⟨h1, h2⟩ := (mem_fullRowsList b r).mp hr
    exact hR r h1 h2
  · rw [List.eq_nil_iff_forall_not_mem]
    intro c hc
    obtain ⟨h1, h2⟩ := (mem_fullColsList b c).mp hc
    exact hC c h1 h2

theorem length_rowPairs (b : Board) :
    (rowPairs b).length = (fullRowsList b).length * boardWidth b := by
  unfold rowPairs
  rw [List.length_flatMap]
  have : (fullRowsList b).map (fun r =>
      ((List.range (boardWidth b)).map (fun c => (r, c))).length) =
      (fullRowsList b).map (fun _ => boardWidth b) := by
    apply List.map_congr_left
    intro r _
    simp
  rw [show (List.map (List.length ∘ fun r =>
      (List.range (boardWidth b)).map (fun c => (r, c))) (fullRowsList b)) =
    (fullRowsList b).map (fun r =>
      ((List.range (boardWidth b)).map (fun c => (r, c))).length) from rfl, this,
    sum_map_const]

theorem clear_lines_spec (b : Board) (hb : validBoard b = true) :
    (clear_lines b).2.2.1 = (List.range b.length).countP (fun r => decide (FullRow b r)) ∧
    (clear_lines b).2.2.2 =
      (List.range (boardWidth b)).countP (fun c => decide (FullCol b c)) ∧
    (clear_lines b).2.1 = (fullRowsList b).length * boardWidth b +
      (fullColsList b).length * (b.length - (fullRowsList b).length) ∧
    (∀ r c, cellAt (clear_lines b).1 r c =
      if FullRow b r ∨ FullCol b c then 0 else cellAt b r c) ∧
    (clear_lines b).1.length = b.length ∧
    (∀ r', ((clear_lines b).1.getD r' []).length = (b.getD r' []).length) := by
  rw [clear_lines_eq]
  by_cases hcase : (fullRowsList b).isEmpty && (fullColsList b).isEmpty
  · rw [if_pos hcase]
    rw [Bool.and_eq_true, List.isEmpty_iff, List.isEmpty_iff] at hcase
    obtain ⟨hR, hC⟩ := hcase
    have hnoR : ∀ r, ¬ FullRow b r := by
      intro r hr
      have hmem : r ∈ fullRowsList b := (mem_fullRowsList b r).mpr ⟨FullRow_lt hb hr, hr⟩
      rw [hR] at hmem
      exact absurd hmem (List.not_mem_nil r)
    have hnoC : ∀ c, ¬ FullCol b c := by
      intro c hc
      have hmem : c ∈ fullColsList b := (mem_fullColsList b c).mpr ⟨FullCol_lt hb hc, hc⟩
      rw [hC] at hmem
      exact absurd hmem (List.not_mem_nil c)
    refine ⟨?_, ?_, ?_, ?_, rfl, fun _ => rfl⟩
    · rw [← length_fullRowsList, hR]
      rfl
    · rw [← length_fullColsList, hC]
      rfl
    · rw [hR, hC]
      simp
    · intro r c
      rw [if_neg (by rintro (h | h); exacts [hnoR r h, hnoC c h])]
  · rw [if_neg hcase]
    have hcells1 : (clearPass (b, 0) (rowPairs b)).2 =
        (fullRowsList b).length * boardWidth b := by
      rw [clearPass_snd _ _ (nodup_rowPairs b)]
      have hall : (rowPairs b).countP (fun p => cellAt (b, 0).1 p.1 p.2 != 0) =
          (rowPairs b).length := by
        apply List.countP_eq_length.mpr
        intro p hp
        rcases p with ⟨pr, pc⟩
        obtain ⟨hmem, hlt⟩ := (mem_rowPairs b pr pc).mp hp
        obtain ⟨hrow, hfull⟩ := (mem_fullRowsList b pr).mp hmem
        simpa using hfull pc hlt
      rw [hall, length_rowPairs]
      simp
    have hcells2 : (clearPass (clearPass (b, 0) (rowPairs b)) (colPairs b)).2 =
        (clearPass (b, 0) (rowPairs b)).2 +
          (fullColsList b).length * (b.length - (fullRowsList b).length) := by
      rw [clearPass_snd _ _ (nodup_colPairs b)]
      congr 1
      unfold colPairs
      rw [countP_flatMap]
      have hmap : (fullColsList b).map (fun c =>
          (((List.range b.length).map (fun r => (r, c))).countP
            (fun p => cellAt (clearPass (b, 0) (rowPairs b)).1 p.1 p.2 != 0))) =
          (fullColsList b).map (fun _ => b.length - (fullRowsList b).length) := by
        apply List.map_congr_left
        intro c hcmem
        obtain ⟨hcw, hfc⟩ := (mem_fullColsList b c).mp hcmem
        rw [List.countP_map]
        have hcong : (List.range b.length).countP
            ((fun p => cellAt (clearPass (b, 0) (rowPairs b)).1 p.1 p.2 != 0) ∘
              (fun r => (r, c))) =
            (List.range b.length).countP (fun r => !(decide (r ∈ fullRowsList b))) := by
          apply List.countP_congr
          intro r hr
          rw [List.mem_range] at hr
          simp only [Function.comp]
          rw [cellAt_clearPass]
          by_cases hrR : r ∈ fullRowsList b
          · rw [if_pos ((mem_rowPairs b r c).mpr ⟨hrR, hcw⟩)]
            simp [hrR]
          · rw [if_neg (fun hmem => hrR ((mem_rowPairs b r c).mp hmem).1)]
            simp [hrR, hfc r hr]
        rw [hcong]
        exact countP_not_mem_range
          (fun r hr => ((mem_fullRowsList b r).mp hr).1) (nodup_fullRowsList b)
      rw [hmap, sum_map_const]
    refine ⟨length_fullRowsList b, length_fullColsList b, ?_, ?_, ?_, ?_⟩
    · rw [show ((clearPass (clearPass (b, 0) (rowPairs b)) (colPairs b)).1,
        (clearPass (clearPass (b, 0) (rowPairs b)) (colPairs b)).2,
        (fullRowsList b).length, (fullColsList b).length).2.1 =
        (clearPass (clearPass (b, 0) (rowPairs b)) (colPairs b)).2 from rfl]
      rw [hcells2, hcells1]
    · intro r c
      rw [show ((clearPass (clearPass (b, 0) (rowPairs b)) (colPairs b)).1,
        (clearPass (clearPass (b, 0) (rowPairs b)) (colPairs b)).2,
        (fullRowsList b).length, (fullColsList b).length).1 =
        (clearPass (clearPass (b, 0) (rowPairs b)) (colPairs b)).1 from rfl]
      rw [cellAt_clearPass, cellAt_clearPass]
      by_cases hfr : FullRow b r
      · rw [if_pos (Or.inl hfr)]
        have hrH : r < b.length := FullRow_lt hb hfr
        by_cases hcW : c < boardWidth b
        · have hmemR : (r, c) ∈ rowPairs b :=
            (mem_rowPairs b r c).mpr ⟨(mem_fullRowsList b r).mpr ⟨hrH, hfr⟩, hcW⟩
          by_cases hmemC : (r, c) ∈ colPairs b
          · rw [if_pos hmemC]
          · rw [if_neg hmemC, if_pos hmemR]
        · have hnC : (r, c) ∉ colPairs b := fun h =>
            hcW (((mem_fullColsList b c).mp ((mem_colPairs b r c).mp h).1).1)
          have hnR : (r, c) ∉ rowPairs b := fun h => hcW ((mem_rowPairs b r c).mp h).2
          rw [if_neg hnC, if_neg hnR, cellAt_col_oob hb (Nat.le_of_not_lt hcW)]
      · by_cases hfc : FullCol b c
        · rw [if_pos (Or.inr hfc)]
          have hcW : c < boardWidth b := FullCol_lt hb hfc
          by_cases hrH : r < b.length
          · rw [if_pos ((mem_colPairs b r c).mpr
              ⟨(mem_fullColsList b c).mpr ⟨hcW, hfc⟩, hrH⟩)]
          · have hnC : (r, c) ∉ colPairs b := fun h =>
              hrH ((mem_colPairs b r c).mp h).2
            have hnR : (r, c) ∉ rowPairs b := fun h =>
              hrH ((mem_fullRowsList b r).mp ((mem_rowPairs b r c).mp h).1).1
            rw [if_neg hnC, if_neg hnR, cellAt_row_oob c (Nat.le_of_not_lt hrH)]
        · have hor : ¬(FullRow b r ∨ FullCol b c) := by
            rintro (h | h)
            exacts [hfr h, hfc h]
          have hnC : (r, c) ∉ colPairs b := fun h =>
            hfc ((mem_fullColsList b c).mp ((mem_colPairs b r c).mp h).1).2
          have hnR : (r, c) ∉ rowPairs b := fun h =>
            hfr ((mem_fullRowsList b r).mp ((mem_rowPairs b r c).mp h).1).2
          rw [if_neg hor, if_neg hnC, if_neg hnR]
    · rw [show ((clearPass (clearPass (b, 0) (rowPairs b)) (colPairs b)).1,
        (clearPass (clearPass (b, 0) (rowPairs b)) (colPairs b)).2,
        (fullRowsList b).length, (fullColsList b).length).1 =
        (clearPass (clearPass (b, 0) (rowPairs b)) (colPairs b)).1 from rfl]
      rw [clearPass_fst_length, clearPass_fst_length]
    · intro r'
      rw [show ((clearPass (clearPass (b, 0) (rowPairs b)) (colPairs b)).1,
        (clearPass (clearPass (b, 0) (rowPairs b)) (colPairs b)).2,
        (fullRowsList b).length, (fullColsList b).length).1 =
        (clearPass (clearPass (b, 0) (rowPairs b)) (colPairs b)).1 from rfl]
      rw [clearPass_fst_rowlen, clearPass_fst_rowlen]

/-- C1: `clear_lines` counts full rows and full columns of the pre-clear board,
zeroes exactly the cells on full lines (simultaneously, from the pre-clear
board), counts every zeroed cell once so that
`cells = rows * width + cols * height - rows * cols`, and returns the original
board with zero counts when no line is full. -/
theorem clear_lines_correct (b : Board) (hb : validBoard b = true) :
    (clear_lines b).2.2.1 = (List.range b.length).countP (fun r => decide (FullRow b r)) ∧
    (clear_lines b).2.2.2 =
      (List.range (boardWidth b)).countP (fun c => decide (FullCol b c)) ∧
    (clear_lines b).2.1 = (clear_lines b).2.2.1 * boardWidth b +
      (clear_lines b).2.2.2 * b.length -
      (clear_lines b).2.2.1 * (clear_lines b).2.2.2 ∧
    (∀ r c, cellAt (clear_lines b).1 r c =
      if FullRow b r ∨ FullCol b c then 0 else cellAt b r c) ∧
    ((∀ r < b.length, ¬ FullRow b r) → (∀ c < boardWidth b, ¬ FullCol b c) →
      clear_lines b = (b, 0, 0, 0)) := by
  obtain ⟨h1, h2, h3, h4, h5, h6⟩ := clear_lines_spec b hb
  refine ⟨h1, h2, ?_, h4, clear_lines_of_no_full b⟩
  have hrlen : (clear_lines b).2.2.1 = (fullRowsList b).length := by
    rw [h1, ← length_fullRowsList]
  have hclen : (clear_lines b).2.2.2 = (fullColsList b).length := by
    rw [h2, ← length_fullColsList]
  have hRH : (fullRowsList b).length ≤ b.length := by
    have h := List.length_filter_le
      (fun r => (List.range (boardWidth b)).all (fun c => cellAt b r c != 0))
      (List.range b.length)
    simpa using h
  rw [h3, hrlen, hclen]
  have hd : (fullColsList b).length * (b.length - (fullRowsList b).length) =
      (fullColsList b).length * b.length -
        (fullColsList b).length * (fullRowsList b).length :=
    Nat.mul_sub_left_distrib ..
  have hle : (fullColsList b).length * (fullRowsList b).length ≤
      (fullColsList b).length * b.length := Nat.mul_le_mul_left _ hRH
  have hcomm : (fullRowsList b).length * (fullColsList b).length =
      (fullColsList b).length * (fullRowsList b).length := Nat.mul_comm ..
  omega

theorem clear_lines_correct_witness :
    validBoard ([[1, 1], [1, 0]] : Board) = true ∧
      ((clear_lines [[1, 1], [1, 0]]).2.2.1 =
        (List.range (List.length ([[1, 1], [1, 0]] : Board))).countP
          (fun r => decide (FullRow [[1, 1], [1, 0]] r)) ∧
      (clear_lines [[1, 1], [1, 0]]).2.2.2 =
        (List.range (boardWidth [[1, 1], [1, 0]])).countP
          (fun c => decide (FullCol [[1, 1], [1, 0]] c)) ∧
      (clear_lines [[1, 1], [1, 0]]).2.1 =
        (clear_lines [[1, 1], [1, 0]]).2.2.1 * boardWidth [[1, 1], [1, 0]] +
        (clear_lines [[1, 1], [1, 0]]).2.2.2 * List.length ([[1, 1], [1, 0]] : Board) -
        (clear_lines [[1, 1], [1, 0]]).2.2.1 * (clear_lines [[1, 1], [1, 0]]).2.2.2 ∧
      (∀ r c, cellAt (clear_lines [[1, 1], [1, 0]]).1 r c =
        if FullRow [[1, 1], [1, 0]] r ∨ FullCol [[1, 1], [1, 0]] c then 0
        else cellAt [[1, 1], [1, 0]] r c) ∧
      ((∀ r < List.length ([[1, 1], [1, 0]] : Board), ¬ FullRow [[1, 1], [1, 0]] r) →
       (∀ c < boardWidth [[1, 1], [1, 0]], ¬ FullCol [[1, 1], [1, 0]] c) →
        clear_lines [[1, 1], [1, 0]] = ([[1, 1], [1, 0]], 0, 0, 0))) :=
  ⟨by decide, clear_lines_correct [[1, 1], [1, 0]] (by decide)⟩

/-- C10: the board returned by `clear_lines` has no full row and no full column,
so `clear_lines` applied to it returns it unchanged with all three counts 0. -/
theorem clear_lines_idempotent (b : Board) (hb : validBoard b = true) :
    (∀ r, ¬ FullRow (clear_lines b).1 r) ∧ (∀ c, ¬ FullCol (clear_lines b).1 c) ∧
    clear_lines (clear_lines b).1 = ((clear_lines b).1, 0, 0, 0) := by
  obtain ⟨h1, h2, h3, h4, h5, h6⟩ := clear_lines_spec b hb
  have hb' : validBoard (clear_lines b).1 = true := validBoard_of_preserved hb h5 h6
  have hw' : boardWidth (clear_lines b).1 = boardWidth b := h6 0
  have hnoR : ∀ r, ¬ FullRow (clear_lines b).1 r := by
    intro r hfull
    by_cases hfr : FullRow b r
    · have hcell := hfull 0 (by rw [hw']; exact boardWidth_pos hb)
      apply hcell
      rw [h4 r 0, if_pos (Or.inl hfr)]
    · have hfr' := hfr
      unfold FullRow at hfr'
      push_neg at hfr'
      obtain ⟨c, hcW, hc0⟩ := hfr'
      have hcell := hfull c (by rw [hw']; exact hcW)
      apply hcell
      rw [h4 r c]
      by_cases hfc : FullCol b c
      · rw [if_pos (Or.inr hfc)]
      · rw [if_neg (by rintro (h | h); exacts [hfr h, hfc h])]
        exact hc0
  have hnoC : ∀ c, ¬ FullCol (clear_lines b).1 c := by
    intro c hfull
    by_cases hfc : FullCol b c
    · have hcell := hfull 0 (by rw [h5]; exact length_pos_of_validBoard hb)
      apply hcell
      rw [h4 0 c, if_pos (Or.inr hfc)]
    · have hfc' := hfc
      unfold FullCol at hfc'
      push_neg at hfc'
      obtain ⟨r, hrH, hr0⟩ := hfc'
      have hcell := hfull r (by rw [h5]; exact hrH)
      apply hcell
      rw [h4 r c]
      by_cases hfr : FullRow b r
      · rw [if_pos (Or.inl hfr)]
      · rw [if_neg (by rintro (h | h); exacts [hfr h, hfc h])]
        exact hr0
  exact ⟨hnoR, hnoC,
    clear_lines_of_no_full _ (fun r _ => hnoR r) (fun c _ => hnoC c)⟩

theorem clear_lines_idempotent_witness :
    validBoard ([[1, 1], [1, 0]] : Board) = true ∧
      ((∀ r, ¬ FullRow (clear_lines [[1, 1], [1, 0]]).1 r) ∧
       (∀ c, ¬ FullCol (clear_lines [[1, 1], [1, 0]]).1 c) ∧
       clear_lines (clear_lines [[1, 1], [1, 0]]).1 =
         ((clear_lines [[1, 1], [1, 0]]).1, 0, 0, 0)) :=
  ⟨by decide, clear_lines_idempotent [[1, 1], [1, 0]] (by decide)⟩

theorem validBoard_place_clear (b : Board) (p : Piece) (row col : Int)
    (hb : validBoard b = true) :
    validBoard (clear_lines (placeGrid p row col 1 b)).1 = true := by
  have h1 : validBoard (placeGrid p row col 1 b) = true :=
    validBoard_of_preserved hb (placeGrid_length p row col 1 b)
      (placeGrid_rowlen p row col 1 b)
  obtain ⟨_, _, _, _, h5, h6⟩ := clear_lines_spec _ h1
  exact validBoard_of_preserved h1 h5 h6

theorem pyGetPiece_nonneg (xs : List Piece) (h : Nat) (hh : h < xs.length) :
    pyGetPiece xs (h : Int) = .ok (xs.getD h default) := by
  unfold pyGetPiece
  rw [if_pos ⟨Int.natCast_nonneg h, by exact_mod_cast hh⟩, Int.toNat_natCast]

theorem pySlices_eq_eraseIdx (xs : List Piece) (h : Nat) :
    pySliceTo xs (h : Int) ++ pySliceFrom xs ((h : Int) + 1) = xs.eraseIdx h := by
  unfold pySliceTo pySliceFrom
  rw [if_neg (by omega : ¬(h : Int) < 0), if_neg (by omega : ¬(h : Int) + 1 < 0)]
  rw [Int.toNat_natCast, show ((h : Int) + 1).toNat = h + 1 from by omega]
  rw [List.eraseIdx_eq_take_drop_succ]

theorem simulate_move_ok_spec (s : GameState) (h : Nat) (row col : Int)
    (hs : validState s = true) (hh : h < s.hand.length)
    (hcan : can_place s.board (s.hand.getD h default) row col = true) :
    ∃ ns placed,
      place_piece s.board (s.hand.getD h default) row col 1 = .ok placed ∧
      simulate_move s (h : Int) row col = .ok
        (ns, score_delta (s.hand.getD h default) (clear_lines placed).2.1,
         (clear_lines placed).2.1, (clear_lines placed).2.2.1,
         (clear_lines placed).2.2.2) ∧
      ns.board = (clear_lines placed).1 ∧
      ns.score = s.score + ((s.hand.getD h default).block_count +
        (clear_lines placed).2.1) ∧
      ns.hand = s.hand.eraseIdx h := by
  have hb : validBoard s.board = true := by
    unfold validState at hs
    exact (Bool.and_eq_true .. ▸ hs).2
  have hlen : s.hand.length ≤ 3 := by
    unfold validState at hs
    exact of_decide_eq_true (Bool.and_eq_true .. ▸ hs).1
  have hplace : place_piece s.board (s.hand.getD h default) row col 1 =
      .ok (placeGrid (s.hand.getD h default) row col 1 s.board) := by
    unfold place_piece
    rw [hcan]
    rfl
  have hhandlen : (s.hand.eraseIdx h).length ≤ 3 := by
    rw [List.length_eraseIdx_of_lt hh]
    omega
  have hmk : mkGameState (clear_lines (placeGrid (s.hand.getD h default) row col 1
      s.board)).1
      (s.score + score_delta (s.hand.getD h default)
        (clear_lines (placeGrid (s.hand.getD h default) row col 1 s.board)).2.1)
      (s.hand.eraseIdx h) = .ok
      ⟨(clear_lines (placeGrid (s.hand.getD h default) row col 1 s.board)).1,
       s.score + score_delta (s.hand.getD h default)
        (clear_lines (placeGrid (s.hand.getD h default) row col 1 s.board)).2.1,
       s.hand.eraseIdx h⟩ := by
    unfold mkGameState
    rw [if_neg (by omega), if_neg (by
      rw [validBoard_place_clear s.board (s.hand.getD h default) row col hb]
      simp)]
  refine ⟨⟨(clear_lines (placeGrid (s.hand.getD h default) row col 1 s.board)).1,
    s.score + score_delta (s.hand.getD h default)
      (clear_lines (placeGrid (s.hand.getD h default) row col 1 s.board)).2.1,
    s.hand.eraseIdx h⟩, _, hplace, ?_, rfl, rfl, rfl⟩
  unfold simulate_move
  rw [pyGetPiece_nonneg s.hand h hh]
  show (place_piece s.board (s.hand.getD h default) row col 1).bind _ = _
  rw [hplace]
  show mkGameState _ _ _ >>= _ = _
  rw [pySlices_eq_eraseIdx, hmk]
  rfl

/-- C5: on a legal move (index in range, `can_place` true) `simulate_move`
returns the placed-then-cleared board, the score increased by
`block_count + cleared_cells`, and the hand with exactly the used piece
removed (remaining order preserved), along with that delta and the clear
counts. -/
theorem simulate_move_legal (s : GameState) (h : Nat) (row col : Int)
    (hs : validState s = true) (hh : h < s.hand.length)
    (hcan : can_place s.board (s.hand.getD h default) row col = true) :
    ∃ ns placed,
      place_piece s.board (s.hand.getD h default) row col 1 = .ok placed ∧
      simulate_move s (h : Int) row col = .ok
        (ns, score_delta (s.hand.getD h default) (clear_lines placed).2.1,
         (clear_lines placed).2.1, (clear_lines placed).2.2.1,
         (clear_lines placed).2.2.2) ∧
      ns.board = (clear_lines placed).1 ∧
      ns.score = s.score + ((s.hand.getD h default).block_count +
        (clear_lines placed).2.1) ∧
      ns.hand = s.hand.eraseIdx h :=
  simulate_move_ok_spec s h row col hs hh hcan

theorem simulate_move_legal_witness :
    validState sample2 = true ∧ 0 < sample2.hand.length ∧
    can_place sample2.board (sample2.hand.getD 0 default) 0 0 = true ∧
    (∃ ns placed,
      place_piece sample2.board (sample2.hand.getD 0 default) 0 0 1 = .ok placed ∧
      simulate_move sample2 ((0 : Nat) : Int) 0 0 = .ok
        (ns, score_delta (sample2.hand.getD 0 default) (clear_lines placed).2.1,
         (clear_lines placed).2.1, (clear_lines placed).2.2.1,
         (clear_lines placed).2.2.2) ∧
      ns.board = (clear_lines placed).1 ∧
      ns.score = sample2.score + ((sample2.hand.getD 0 default).block_count +
        (clear_lines placed).2.1) ∧
      ns.hand = sample2.hand.eraseIdx 0) :=
  ⟨by decide, by decide, by decide,
    simulate_move_legal sample2 0 0 0 (by decide) (by decide) (by decide)⟩

theorem pyGetPiece_oob (xs : List Piece) (hi : Int)
    (h : (xs.length : Int) ≤ hi ∨ hi < -(xs.length : Int)) :
    pyGetPiece xs hi = .error "IndexError: hand index out of range" := by
  unfold pyGetPiece
  rw [if_neg (by omega), if_neg (by omega)]

theorem pyGetPiece_inRange (xs : List Piece) (hi : Int)
    (hge : -(xs.length : Int) ≤ hi) (hlt : hi < (xs.length : Int)) :
    pyGetPiece xs hi = .ok (pyPieceAt xs hi) := by
  unfold pyGetPiece pyPieceAt
  by_cases h0 : 0 ≤ hi
  · rw [if_pos ⟨h0, hlt⟩, if_pos h0]
  · rw [if_neg (by omega), if_pos ⟨hge, by omega⟩, if_neg h0]

theorem place_piece_eq_ok (b : Board) (p : Piece) (row col : Int)
    (hcan : can_place b p row col = true) :
    place_piece b p row col 1 = .ok (placeGrid p row col 1 b) := by
  unfold place_piece
  rw [hcan]
  rfl

theorem place_piece_eq_error (b : Board) (p : Piece) (row col : Int)
    (hcan : can_place b p row col = false) :
    place_piece b p row col 1 = .error "Invalid placement" := by
  unfold place_piece
  rw [hcan]
  rfl

theorem simulate_move_place_error (s : GameState) (hi row col : Int) (p : Piece)
    (hpg : pyGetPiece s.hand hi = .ok p)
    (hcan : can_place s.board p row col = false) :
    simulate_move s hi row col = .error "Invalid placement" := by
  unfold simulate_move
  rw [hpg]
  show (place_piece s.board p row col 1).bind _ = _
  rw [place_piece_eq_error s.board p row col hcan]
  rfl

theorem simulate_move_eq_mk (s : GameState) (hi row col : Int) (p : Piece)
    (hpg : pyGetPiece s.hand hi = .ok p)
    (hcan : can_place s.board p row col = true) :
    simulate_move s hi row col =
      (mkGameState (clear_lines (placeGrid p row col 1 s.board)).1
        (s.score + score_delta p (clear_lines (placeGrid p row col 1 s.board)).2.1)
        (pySliceTo s.hand hi ++ pySliceFrom s.hand (hi + 1))).map
        (fun ns => (ns,
          score_delta p (clear_lines (placeGrid p row col 1 s.board)).2.1,
          (clear_lines (placeGrid p row col 1 s.board)).2.1,
          (clear_lines (placeGrid p row col 1 s.board)).2.2.1,
          (clear_lines (placeGrid p row col 1 s.board)).2.2.2)) := by
  unfold simulate_move
  rw [hpg]
  show (place_piece s.board p row col 1).bind _ = _
  rw [place_piece_eq_ok s.board p row col hcan]
  show mkGameState _ _ _ >>= _ = _
  cases hmk : mkGameState (clear_lines (placeGrid p row col 1 s.board)).1
      (s.score + score_delta p (clear_lines (placeGrid p row col 1 s.board)).2.1)
      (pySliceTo s.hand hi ++ pySliceFrom s.hand (hi + 1)) with
  | error e => rfl
  | ok v => rfl

theorem mkGameState_isOk_false_iff (board : Board) (score : Nat) (hand : List Piece)
    (hb : validBoard board = true) :
    ((mkGameState board score hand).isOk = false ↔ 3 < hand.length) := by
  unfold mkGameState
  by_cases h : 3 < hand.length
  · rw [if_pos h]
    simp [Except.isOk, Except.toBool, h]
  · rw [if_neg h, if_neg (by rw [hb]; simp)]
    simp [Except.isOk, Except.toBool, h]

theorem isOk_map {α β : Type} (x : Except String α) (f : α → β) :
    (x.map f).isOk = x.isOk := by
  cases x <;> rfl

theorem newHand_length (xs : List Piece) (hi : Int)
    (hge : -(xs.length : Int) ≤ hi) (hlt : hi < (xs.length : Int)) :
    (pySliceTo xs hi ++ pySliceFrom xs (hi + 1)).length =
      if hi = -1 then 2 * xs.length - 1 else xs.length - 1 := by
  unfold pySliceTo pySliceFrom
  rw [List.length_append]
  by_cases h0 : 0 ≤ hi
  · rw [if_neg (by omega : ¬hi < 0), if_neg (by omega : ¬hi + 1 < 0),
      if_neg (by omega : ¬hi = -1), List.length_take, List.length_drop]
    omega
  · by_cases hm1 : hi = -1
    · rw [if_pos (by omega : hi < 0), if_neg (by omega : ¬hi + 1 < 0), if_pos hm1,
        List.length_take, List.length_drop]
      subst hm1
      omega
    · rw [if_pos (by omega : hi < 0), if_pos (by omega : hi + 1 < 0), if_neg hm1,
        List.length_take, List.length_drop]
      omega

/-- C4 counterexample to the claim as stated: with a one-piece hand,
`hand_index = -1` is outside `[0, len(hand)-1]`, yet `simulate_move` succeeds
(Python indexing selects the last piece instead of raising). -/
theorem simulate_move_neg_index_counterexample :
    ¬(0 ≤ (-1 : Int) ∧ (-1 : Int) < sample2.hand.length) ∧
    (simulate_move sample2 (-1) 0 0).isOk = true :=
  ⟨by decide, by decide⟩

/-- C4 amended: `simulate_move` fails iff the hand index is outside Python's
accepted range `[-len, len)`, or `can_place` is false for the Python-selected
piece, or `hand_index = -1` with a full 3-piece hand (the removal slice
`hand[:-1] + hand[0:]` then builds a 5-piece hand and state validation
raises); an in-range negative index is otherwise reinterpreted Python-style
rather than raising. -/
theorem simulate_move_fails_iff (s : GameState) (hi row col : Int)
    (hs : validState s = true) :
    (simulate_move s hi row col).isOk = false ↔
      ((s.hand.length : Int) ≤ hi ∨ hi < -(s.hand.length : Int) ∨
       can_place s.board (pyPieceAt s.hand hi) row col = false ∨
       (hi = -1 ∧ s.hand.length = 3)) := by
  have hb : validBoard s.board = true := by
    unfold validState at hs
    exact (Bool.and_eq_true .. ▸ hs).2
  have hlen : s.hand.length ≤ 3 := by
    unfold validState at hs
    exact of_decide_eq_true (Bool.and_eq_true .. ▸ hs).1
  by_cases hoob : (s.hand.length : Int) ≤ hi ∨ hi < -(s.hand.length : Int)
  · have he : simulate_move s hi row col = .error "IndexError: hand index out of range" := by
      unfold simulate_move
      rw [pyGetPiece_oob s.hand hi hoob]
      rfl
    rw [he]
    constructor
    · intro _
      rcases hoob with h | h
      · exact Or.inl h
      · exact Or.inr (Or.inl h)
    · intro _
      rfl
  · have hge : -(s.hand.length : Int) ≤ hi := by omega
    have hlt : hi < (s.hand.length : Int) := by omega
    have hpg : pyGetPiece s.hand hi = .ok (pyPieceAt s.hand hi) :=
      pyGetPiece_inRange s.hand hi hge hlt
    by_cases hcan : can_place s.board (pyPieceAt s.hand hi) row col = true
    · rw [simulate_move_eq_mk s hi row col _ hpg hcan, isOk_map,
        mkGameState_isOk_false_iff _ _ _ (validBoard_place_clear _ _ _ _ hb),
        newHand_length s.hand hi hge hlt]
      constructor
      · intro hgt
        by_cases hm1 : hi = -1
        · rw [if_pos hm1] at hgt
          exact Or.inr (Or.inr (Or.inr ⟨hm1, by omega⟩))
        · rw [if_neg hm1] at hgt
          omega
      · rintro (h | h | h | ⟨hm1, h3⟩)
        · omega
        · omega
        · rw [hcan] at h
          cases h
        · rw [if_pos hm1]
          omega
    · rw [simulate_move_place_error s hi row col _ hpg
        (Bool.not_eq_true _ ▸ hcan)]
      constructor
      · intro _
        exact Or.inr (Or.inr (Or.inl (Bool.not_eq_true _ ▸ hcan)))
      · intro _
        rfl

theorem simulate_move_fails_iff_witness :
    validState sample2 = true ∧
      ((simulate_move sample2 2 0 0).isOk = false ↔
        ((sample2.hand.length : Int) ≤ 2 ∨ (2 : Int) < -(sample2.hand.length : Int) ∨
         can_place sample2.board (pyPieceAt sample2.hand 2) 0 0 = false ∨
         ((2 : Int) = -1 ∧ sample2.hand.length = 3))) :=
  ⟨by decide, simulate_move_fails_iff sample2 2 0 0 (by decide)⟩

theorem mem_legal_moves (s : GameState) (pi r c : Nat) :
    (⟨pi, (r : Int), (c : Int)⟩ : Move) ∈ legal_moves s ↔
      pi < s.hand.length ∧
      (s.hand.getD pi default).height ≤ s.board.length ∧
      (s.hand.getD pi default).width ≤ boardWidth s.board ∧
      r ≤ s.board.length - (s.hand.getD pi default).height ∧
      c ≤ boardWidth s.board - (s.hand.getD pi default).width ∧
      can_place s.board (s.hand.getD pi default) r c = true := by
  unfold legal_moves
  simp only [List.mem_flatMap, List.mem_range, List.mem_filterMap]
  constructor
  · intro ⟨pi', hpi', hmem⟩
    by_cases hfit : s.board.length < (s.hand.getD pi' default).height ∨
        boardWidth s.board < (s.hand.getD pi' default).width
    · rw [if_pos hfit] at hmem
      exact absurd hmem (List.not_mem_nil _)
    · rw [if_neg hfit] at hmem
      push_neg at hfit
      simp only [List.mem_flatMap, List.mem_range, List.mem_filterMap] at hmem
      obtain ⟨r', hr', c', hc', hsome⟩ := hmem
      by_cases hcp : can_place s.board (s.hand.getD pi' default) r' c' = true
      · rw [if_pos hcp] at hsome
        have h1 : pi' = pi := congrArg Move.piece_index (Option.some.inj hsome)
        have h2 : (r' : Int) = (r : Int) := congrArg Move.row (Option.some.inj hsome)
        have h3 : (c' : Int) = (c : Int) := congrArg Move.col (Option.some.inj hsome)
        have h2' : r' = r := by exact_mod_cast h2
        have h3' : c' = c := by exact_mod_cast h3
        subst h1 h2' h3'
        exact ⟨hpi', hfit.1, hfit.2, by omega, by omega, hcp⟩
      · rw [if_neg hcp] at hsome
        exact absurd hsome (Option.some_ne_none _).symm
  · intro ⟨hpi, hh, hw, hr, hc, hcp⟩
    refine ⟨pi, hpi, ?_⟩
    rw [if_neg (by omega)]
    simp only [List.mem_flatMap, List.mem_range, List.mem_filterMap]
    exact ⟨r, by omega, c, by omega, by rw [if_pos hcp]⟩

theorem legal_moves_coords_nonneg (s : GameState) (m : Move)
    (hm : m ∈ legal_moves s) : ∃ r c : Nat, m.row = (r : Int) ∧ m.col = (c : Int) := by
  unfold legal_moves at hm
  simp only [List.mem_flatMap, List.mem_range] at hm
  obtain ⟨pi', _, hmem⟩ := hm
  by_cases hfit : s.board.length < (s.hand.getD pi' default).height ∨
      boardWidth s.board < (s.hand.getD pi' default).width
  · rw [if_pos hfit] at hmem
    exact absurd hmem (List.not_mem_nil _)
  · rw [if_neg hfit] at hmem
    simp only [List.mem_flatMap, List.mem_range, List.mem_filterMap] at hmem
    obtain ⟨r', _, c', _, hsome⟩ := hmem
    by_cases hcp : can_place s.board (s.hand.getD pi' default) r' c' = true
    · rw [if_pos hcp] at hsome
      exact ⟨r', c', (congrArg Move.row (Option.some.inj hsome)).symm,
        (congrArg Move.col (Option.some.inj hsome)).symm⟩
    · rw [if_neg hcp] at hsome
      exact absurd hsome (Option.some_ne_none _).symm

theorem pairwise_flatMap_of {α β : Type} {R : β → β → Prop} {l : List α}
    {f : α → List β} (h1 : ∀ x ∈ l, (f x).Pairwise R)
    (h2 : l.Pairwise (fun a b => ∀ u ∈ f a, ∀ v ∈ f b, R u v)) :
    (l.flatMap f).Pairwise R := by
  induction l with
  | nil => exact List.Pairwise.nil
  | cons x xs ih =>
    rw [List.flatMap_cons, List.pairwise_append]
    refine ⟨h1 x (List.mem_cons_self _ _), ?_, ?_⟩
    · exact ih (fun y hy => h1 y (List.mem_cons_of_mem _ hy)) (List.pairwise_cons.mp h2).2
    · intro a ha b hb
      rw [List.mem_flatMap] at hb
      obtain ⟨y, hy, hby⟩ := hb
      exact (List.pairwise_cons.mp h2).1 y hy a ha b hby

theorem legal_moves_sorted (s : GameState) : (legal_moves s).Pairwise moveLt := by
  unfold legal_moves
  apply pairwise_flatMap_of
  · intro pi _
    by_cases hfit : s.board.length < (s.hand.getD pi default).height ∨
        boardWidth s.board < (s.hand.getD pi default).width
    · rw [if_pos hfit]
      exact List.Pairwise.nil
    · rw [if_neg hfit]
      apply pairwise_flatMap_of
      · intro r _
        apply List.Pairwise.filterMap _ ?_ (List.pairwise_lt_range _)
        intro c1 c2 hlt u hu v hv
        by_cases h1 : can_place s.board (s.hand.getD pi default) ((r : Nat) : Int) c1
        · rw [if_pos h1, Option.mem_def, Option.some.injEq] at hu
          by_cases h2 : can_place s.board (s.hand.getD pi default) ((r : Nat) : Int) c2
          · rw [if_pos h2, Option.mem_def, Option.some.injEq] at hv
            right
            rw [← hu, ← hv]
            exact ⟨rfl, Or.inr ⟨rfl, show (c1 : Int) < (c2 : Int) by exact_mod_cast hlt⟩⟩
          · rw [if_neg h2] at hv
            exact absurd hv (by simp)
        · rw [if_neg h1] at hu
          exact absurd hu (by simp)
      · apply List.Pairwise.imp ?_ (List.pairwise_lt_range _)
        intro r1 r2 hlt u hu v hv
        rw [List.mem_filterMap] at hu hv
        obtain ⟨c1, _, hu⟩ := hu
        obtain ⟨c2, _, hv⟩ := hv
        by_cases h1 : can_place s.board (s.hand.getD pi default) ((r1 : Nat) : Int) c1
        · rw [if_pos h1, Option.some.injEq] at hu
          by_cases h2 : can_place s.board (s.hand.getD pi default) ((r2 : Nat) : Int) c2
          · rw [if_pos h2, Option.some.injEq] at hv
            right
            rw [← hu, ← hv]
            exact ⟨rfl, Or.inl (show (r1 : Int) < (r2 : Int) by exact_mod_cast hlt)⟩
          · rw [if_neg h2] at hv
            exact absurd hv (by simp)
        · rw [if_neg h1] at hu
          exact absurd hu (by simp)
  · apply List.Pairwise.imp ?_ (List.pairwise_lt_range _)
    intro p1 p2 hlt u hu v hv
    have hu' : u.piece_index = p1 := by
      by_cases hfit : s.board.length < (s.hand.getD p1 default).height ∨
          boardWidth s.board < (s.hand.getD p1 default).width
      · rw [if_pos hfit] at hu
        exact absurd hu (List.not_mem_nil _)
      · rw [if_neg hfit] at hu
        simp only [List.mem_flatMap, List.mem_range, List.mem_filterMap] at hu
        obtain ⟨r', _, c', _, hsome⟩ := hu
        by_cases hcp : can_place s.board (s.hand.getD p1 default) r' c' = true
        · rw [if_pos hcp, Option.some.injEq] at hsome
          rw [← hsome]
        · rw [if_neg hcp] at hsome
          exact absurd hsome (Option.some_ne_none _).symm
    have hv' : v.piece_index = p2 := by
      by_cases hfit : s.board.length < (s.hand.getD p2 default).height ∨
          boardWidth s.board < (s.hand.getD p2 default).width
      · rw [if_pos hfit] at hv
        exact absurd hv (List.not_mem_nil _)
      · rw [if_neg hfit] at hv
        simp only [List.mem_flatMap, List.mem_range, List.mem_filterMap] at hv
        obtain ⟨r', _, c', _, hsome⟩ := hv
        by_cases hcp : can_place s.board (s.hand.getD p2 default) r' c' = true
        · rw [if_pos hcp, Option.some.injEq] at hsome
          rw [← hsome]
        · rw [if_neg hcp] at hsome
          exact absurd hsome (Option.some_ne_none _).symm
    exact Or.inl (by rw [hu', hv']; exact hlt)

/-- C6: `legal_moves` yields exactly the in-bounding-box placements passing
`can_place` (skipping pieces that cannot fit), in piece-index, then row, then
column ascending order; on an empty 10x10 board with hand [single, line2_h] it
yields exactly 190 moves, all passing `can_place`. -/
theorem legal_moves_correct (s : GameState) :
    (∀ pi r c : Nat, (⟨pi, (r : Int), (c : Int)⟩ : Move) ∈ legal_moves s ↔
      pi < s.hand.length ∧
      (s.hand.getD pi default).height ≤ s.board.length ∧
      (s.hand.getD pi default).width ≤ boardWidth s.board ∧
      r ≤ s.board.length - (s.hand.getD pi default).height ∧
      c ≤ boardWidth s.board - (s.hand.getD pi default).width ∧
      can_place s.board (s.hand.getD pi default) r c = true) ∧
    (∀ m ∈ legal_moves s, ∃ r c : Nat, m.row = (r : Int) ∧ m.col = (c : Int)) ∧
    (legal_moves s).Pairwise moveLt ∧
    (legal_moves ⟨board10, 0, [pSingle, pLine2h]⟩).length = 190 ∧
    (∀ m ∈ legal_moves ⟨board10, 0, [pSingle, pLine2h]⟩,
      can_place board10 (([pSingle, pLine2h] : List Piece).getD m.piece_index default)
        m.row m.col = true) := by
  refine ⟨fun pi r c => mem_legal_moves s pi r c, legal_moves_coords_nonneg s,
    legal_moves_sorted s, by set_option maxRecDepth 10000 in decide, ?_⟩
  intro m hm
  obtain ⟨r, c, hr, hc⟩ :=
    legal_moves_coords_nonneg ⟨board10, 0, [pSingle, pLine2h]⟩ m hm
  have hm' : (⟨m.piece_index, (r : Int), (c : Int)⟩ : Move) ∈
      legal_moves ⟨board10, 0, [pSingle, pLine2h]⟩ := by
    rw [show (⟨m.piece_index, (r : Int), (c : Int)⟩ : Move) = m from by
      cases m; simp_all]
    exact hm
  have := ((mem_legal_moves ⟨board10, 0, [pSingle, pLine2h]⟩ m.piece_index r c).mp
    hm').2.2.2.2.2
  rw [hr, hc]
  exact this

theorem foldl_count_decP {α : Type} (l : List α) (p : α → Prop) [DecidablePred p]
    (init : Nat) :
    l.foldl (fun s x => if p x then s + 1 else s) init =
      init + l.countP (fun x => decide (p x)) := by
  induction l generalizing init with
  | nil => simp
  | cons x xs ih =>
    simp only [List.foldl_cons, List.countP_cons, ih]
    by_cases h : p x
    · rw [if_pos h]
      have hone : (if (decide (p x)) = true then 1 else 0) = 1 := by
        simp [decide_eq_true h]
      omega
    · rw [if_neg h]
      have hzero : (if (decide (p x)) = true then 1 else 0) = 0 := by
        simp [h]
      omega

theorem near_full_lines_eq (b : Board) (lo hi : Nat) :
    near_full_lines b lo hi =
      (List.range b.length).countP (fun r => decide
        (lo ≤ (List.range (boardWidth b)).countP (fun c => cellAt b r c != 0) ∧
         (List.range (boardWidth b)).countP (fun c => cellAt b r c != 0) ≤ hi)) +
      (List.range (boardWidth b)).countP (fun c => decide
        (lo ≤ (List.range b.length).countP (fun r => cellAt b r c != 0) ∧
         (List.range b.length).countP (fun r => cellAt b r c != 0) ≤ hi)) := by
  simp only [near_full_lines]
  rw [foldl_count_decP (List.range b.length) (fun r =>
    lo ≤ (List.range (boardWidth b)).countP (fun c => cellAt b r c != 0) ∧
      (List.range (boardWidth b)).countP (fun c => cellAt b r c != 0) ≤ hi) 0]
  rw [foldl_count_decP (List.range (boardWidth b)) (fun c =>
    lo ≤ (List.range b.length).countP (fun r => cellAt b r c != 0) ∧
      (List.range b.length).countP (fun r => cellAt b r c != 0) ≤ hi)]
  omega

/-- C7: `evaluate` is score plus the weighted mobility (total legal-move count
over the whole hand), near-full-lines (rows plus columns with 8-9 filled
cells) and roughness terms, plus the fragments / enclosed-empties terms
exactly when their weight is non-zero. -/
theorem evaluate_correct (s : GameState) (w : HeuristicWeights) :
    evaluate s w = (s.score : Rat) +
      w.mobility * ((legal_moves s).length : Rat) +
      w.near_full_lines *
        (((List.range s.board.length).countP (fun r => decide
            (8 ≤ (List.range (boardWidth s.board)).countP
                (fun c => cellAt s.board r c != 0) ∧
             (List.range (boardWidth s.board)).countP
                (fun c => cellAt s.board r c != 0) ≤ 9)) +
          (List.range (boardWidth s.board)).countP (fun c => decide
            (8 ≤ (List.range s.board.length).countP
                (fun r => cellAt s.board r c != 0) ∧
             (List.range s.board.length).countP
                (fun r => cellAt s.board r c != 0) ≤ 9)) : Nat) : Rat) +
      w.roughness * (roughness s.board : Rat) +
      (if w.fragments ≠ 0 then w.fragments * (empty_fragments s.board : Rat) else 0) +
      (if w.enclosed_empties ≠ 0 then
        w.enclosed_empties * (enclosed_empties s.board : Rat) else 0) := by
  have hnfl := near_full_lines_eq s.board 8 9
  simp only [evaluate]
  by_cases hf : w.fragments = 0 <;> by_cases he : w.enclosed_empties = 0 <;>
    simp [hf, he, bne_iff_ne, mobility, hnfl]

theorem getD_append_lt {α : Type} (l1 l2 : List α) (k : Nat) (d : α)
    (h : k < l1.length) : (l1 ++ l2).getD k d = l1.getD k d := by
  simp [List.getD, List.get?_eq_getElem?, List.getElem?_append_left h]

theorem getD_snoc_self {α : Type} (l : List α) (x d : α) :
    (l ++ [x]).getD l.length d = x := by
  simp [List.getD, List.get?_eq_getElem?, List.getElem?_append_right (Nat.le_refl _)]

theorem except_bind_ok {α β : Type} (a : α) (f : α → Except String β) :
    ((Except.ok a : Except String α) >>= f) = f a := rfl

theorem except_bind_error {α β : Type} (e : String) (f : α → Except String β) :
    ((Except.error e : Except String α) >>= f) = .error e := rfl

theorem validState_of_mkGameState {b : Board} {sc : Nat} {h : List Piece}
    {ns : GameState} (hmk : mkGameState b sc h = .ok ns) : validState ns = true := by
  unfold mkGameState at hmk
  by_cases h1 : 3 < h.length
  · rw [if_pos h1] at hmk
    cases hmk
  · rw [if_neg h1] at hmk
    by_cases h2 : validBoard b = true
    · rw [if_neg (by rw [h2]; simp)] at hmk
      cases hmk
      unfold validState
      rw [h2]
      simp
      omega
    · have h2' : validBoard b = false := by
        cases hvb : validBoard b
        · rfl
        · exact absurd hvb h2
      rw [if_pos (by rw [h2']; rfl)] at hmk
      cases hmk

theorem simulate_move_ok_valid {s : GameState} {hi row col : Int}
    {r : GameState × Nat × Nat × Nat × Nat}
    (h : simulate_move s hi row col = .ok r) : validState r.1 = true := by
  unfold simulate_move at h
  cases hp : pyGetPiece s.hand hi with
  | error e =>
    rw [hp, except_bind_error] at h
    cases h
  | ok p =>
    rw [hp, except_bind_ok] at h
    cases hpl : place_piece s.board p row col 1 with
    | error e =>
      rw [hpl, except_bind_error] at h
      cases h
    | ok placed =>
      rw [hpl, except_bind_ok] at h
      simp only [] at h
      cases hmk : mkGameState (clear_lines placed).1
          (s.score + score_delta p (clear_lines placed).2.1)
          (pySliceTo s.hand hi ++ pySliceFrom s.hand (hi + 1)) with
      | error e =>
        rw [hmk, except_bind_error] at h
        cases h
      | ok ns =>
        rw [hmk, except_bind_ok] at h
        cases h
        exact validState_of_mkGameState hmk

theorem moveLegal_of_mem (s : GameState) (m : Move) (hm : m ∈ legal_moves s) :
    moveLegal s m = true := by
  obtain ⟨r, c, hr, hc⟩ := legal_moves_coords_nonneg s m hm
  have hm' : (⟨m.piece_index, (r : Int), (c : Int)⟩ : Move) ∈ legal_moves s := by
    rw [show (⟨m.piece_index, (r : Int), (c : Int)⟩ : Move) = m from by cases m; simp_all]
    exact hm
  obtain ⟨hpi, _, _, _, _, hcp⟩ := (mem_legal_moves s m.piece_index r c).mp hm'
  unfold moveLegal
  rw [hr, hc, hcp]
  simp [hpi]

theorem simulate_move_ok_of_legal (s : GameState) (m : Move)
    (hs : validState s = true) (hml : moveLegal s m = true) :
    ∃ r, simulate_move s (m.piece_index : Int) m.row m.col = .ok r ∧
      r.1.hand.length + 1 = s.hand.length := by
  unfold moveLegal at hml
  rw [Bool.and_eq_true] at hml
  have hpi : m.piece_index < s.hand.length := of_decide_eq_true hml.1
  obtain ⟨ns, placed, _, hok, _, _, hhand⟩ :=
    simulate_move_ok_spec s m.piece_index m.row m.col hs hpi hml.2
  refine ⟨_, hok, ?_⟩
  show ns.hand.length + 1 = s.hand.length
  rw [hhand, List.length_eraseIdx_of_lt hpi]
  omega

theorem NodeOK_mono {initial : GameState} {nodes nodes' : List Node} {k : Nat}
    (hpre : ∀ j, j < nodes.length → nodes'.getD j default = nodes.getD j default)
    (hk : k < nodes.length) (h : NodeOK initial nodes k) : NodeOK initial nodes' k := by
  obtain ⟨h0, hpos⟩ := h
  constructor
  · intro hk0
    rw [hpre 0 (by omega)]
    exact h0 hk0
  · intro hkpos
    obtain ⟨p, hp, hpar, m, hmove, hlegal, r, hsim, hr⟩ := hpos hkpos
    exact ⟨p, hp, by rw [hpre k hk]; exact hpar, m, by rw [hpre k hk]; exact hmove,
      by rw [hpre p (by omega)]; exact hlegal, r,
      by rw [hpre p (by omega)]; exact hsim, by rw [hpre k hk]; exact hr⟩

theorem expandMoves_fold_ok (w : HeuristicWeights) (idx : Nat) (st : GameState)
    (moves : List Move) (acc : List Node × List Nat)
    (hst : validState st = true) (hmv : ∀ m ∈ moves, moveLegal st m = true) :
    ∃ out, moves.foldlM (expandMove w idx st) acc = .ok out ∧
      acc.1.length ≤ out.1.length ∧
      (∀ k, k < acc.1.length → out.1.getD k default = acc.1.getD k default) ∧
      (∃ tail, out.2 = acc.2 ++ tail ∧ tail.length = moves.length) ∧
      (∀ k, acc.1.length ≤ k → k < out.1.length →
        (out.1.getD k default).parent = (idx : Int) ∧
        validState (out.1.getD k default).state = true ∧
        ∃ m, (out.1.getD k default).move = some m ∧ moveLegal st m = true ∧
          ∃ r, simulate_move st (m.piece_index : Int) m.row m.col = .ok r ∧
            r.1 = (out.1.getD k default).state) ∧
      (∀ i ∈ out.2, i ∈ acc.2 ∨ (acc.1.length ≤ i ∧ i < out.1.length)) := by
  induction moves generalizing acc with
  | nil =>
    refine ⟨acc, rfl, Nat.le_refl _, fun _ _ => rfl, ⟨[], by simp, rfl⟩, ?_, ?_⟩
    · intro k hk1 hk2
      omega
    · intro i hi
      exact Or.inl hi
  | cons mv moves ih =>
    obtain ⟨r, hsim, _⟩ := simulate_move_ok_of_legal st mv hst
      (hmv mv (List.mem_cons_self _ _))
    have hstep : expandMove w idx st acc mv = .ok
        (acc.1 ++ [⟨r.1, (idx : Int), some mv, evaluate r.1 w⟩],
         acc.2 ++ [acc.1.length]) := by
      unfold expandMove
      rw [hsim, except_bind_ok]
      rfl
    obtain ⟨out, hout, hlen, hpre, ⟨tail, htail, htlen⟩, hnew, hmem⟩ :=
      ih (acc.1 ++ [⟨r.1, (idx : Int), some mv, evaluate r.1 w⟩],
          acc.2 ++ [acc.1.length]) (fun m hm => hmv m (List.mem_cons_of_mem _ hm))
    rw [List.length_append, List.length_cons, List.length_nil] at hlen
    refine ⟨out, ?_, by omega, ?_, ?_, ?_, ?_⟩
    · rw [List.foldlM_cons, hstep, except_bind_ok]
      exact hout
    · intro k hk
      rw [hpre k (by rw [List.length_append]; simp; omega)]
      exact getD_append_lt _ _ _ _ hk
    · exact ⟨acc.1.length :: tail, by rw [htail]; simp, by simp [htlen]⟩
    · intro k hk1 hk2
      by_cases hk0 : k = acc.1.length
      · subst hk0
        rw [hpre _ (by rw [List.length_append]; simp)]
        rw [getD_snoc_self]
        exact ⟨rfl, simulate_move_ok_valid hsim,
          mv, rfl, hmv mv (List.mem_cons_self _ _), r, hsim, rfl⟩
      · exact hnew k (by rw [List.length_append]; simp; omega) hk2
    · intro i hi
      rcases hmem i hi with hold | hbound
      · rcases List.mem_append.mp hold with h1 | h2
        · exact Or.inl h1
        · have : i = acc.1.length := by simpa using h2
          refine Or.inr ⟨by omega, ?_⟩
          have := hlen
          omega
      · rw [List.length_append, List.length_cons, List.length_nil] at hbound
        exact Or.inr ⟨by omega, hbound.2⟩

theorem expandBeam_fold_ok (w : HeuristicWeights) (initial : GameState)
    (nodes0 : List Node) (beam : List Nat) (acc : List Node × List Nat)
    (hInv : ExpandInv initial nodes0 acc)
    (hB : ∀ i ∈ beam, i < nodes0.length) :
    ∃ out, beam.foldlM (expandNode w) acc = .ok out ∧ ExpandInv initial nodes0 out ∧
      (∃ tail, out.2 = acc.2 ++ tail) ∧
      (acc.2 ≠ [] → out.2 ≠ []) ∧
      (∀ i ∈ beam, legal_moves ((nodes0.getD i default).state) ≠ [] → out.2 ≠ []) := by
  induction beam generalizing acc with
  | nil =>
    exact ⟨acc, rfl, hInv, ⟨[], by simp⟩, fun h => h,
      fun i hi => absurd hi (List.not_mem_nil i)⟩
  | cons i beam ih =>
    obtain ⟨hA, hlen0, hpre0, hcand⟩ := hInv
    have hi0 : i < nodes0.length := hB i (List.mem_cons_self _ _)
    have hilen : i < acc.1.length := by omega
    have hstate : (acc.1.getD i default).state = (nodes0.getD i default).state := by
      rw [hpre0 i hi0]
    have hvalid : validState ((acc.1.getD i default).state) = true := hA.2.2 i hilen
    obtain ⟨out1, hout1, hlen1, hpre1, ⟨tail1, htail1, htlen1⟩, hnew1, hmem1⟩ :=
      expandMoves_fold_ok w i ((acc.1.getD i default).state)
        (legal_moves ((acc.1.getD i default).state)) acc hvalid
        (fun m hm => moveLegal_of_mem _ m hm)
    have hEN : expandNode w acc i = .ok out1 := by
      unfold expandNode
      exact hout1
    have hInv1 : ExpandInv initial nodes0 out1 := by
      refine ⟨⟨by omega, ?_, ?_⟩, by omega, ?_, ?_⟩
      · intro k hk
        by_cases hkold : k < acc.1.length
        · exact NodeOK_mono (fun j hj => hpre1 j hj) hkold (hA.2.1 k hkold)
        · obtain ⟨hpar, hv, m, hmove, hlegal, rr, hsim, hr⟩ := hnew1 k (by omega) hk
          constructor
          · intro hk0
            omega
          · intro _
            refine ⟨i, by omega, hpar, m, hmove, ?_, rr, ?_, hr⟩
            · rw [hpre1 i hilen]
              exact hlegal
            · rw [hpre1 i hilen]
              exact hsim
      · intro k hk
        by_cases hkold : k < acc.1.length
        · rw [hpre1 k hkold]
          exact hA.2.2 k hkold
        · exact (hnew1 k (by omega) hk).2.1
      · intro k hk
        rw [hpre1 k (by omega)]
        exact hpre0 k hk
      · intro j hj
        rcases hmem1 j hj with hold | hb
        · obtain ⟨h1, h2⟩ := hcand j hold
          exact ⟨h1, by omega⟩
        · exact ⟨by omega, hb.2⟩
    obtain ⟨out, hout, hInvO, ⟨tail2, htail2⟩, hne, hprop⟩ :=
      ih out1 hInv1 (fun j hj => hB j (List.mem_cons_of_mem _ hj))
    refine ⟨out, ?_, hInvO, ?_, ?_, ?_⟩
    · rw [List.foldlM_cons, hEN, except_bind_ok]
      exact hout
    · exact ⟨tail1 ++ tail2, by rw [htail2, htail1, List.append_assoc]⟩
    · intro hacc
      apply hne
      rw [htail1]
      intro hcontra
      exact hacc (List.append_eq_nil.mp hcontra).1
    · intro j hj hlm
      rcases List.mem_cons.mp hj with hj0 | hjmem
      · subst hj0
        apply hne
        rw [htail1]
        intro hcontra
        have ht1 : tail1 = [] := (List.append_eq_nil.mp hcontra).2
        rw [ht1, List.length_nil] at htlen1
        rw [hstate] at htlen1
        exact hlm (List.eq_nil_of_length_eq_zero htlen1.symm)
      · exact hprop j hjmem hlm

theorem maxBy_mem (nodes : List Node) (i : Nat) (rest : List Nat) :
    maxBy nodes (i :: rest) ∈ i :: rest := by
  have hgen : ∀ (l' : List Nat) (b : Nat), b ∈ i :: rest → (∀ j ∈ l', j ∈ i :: rest) →
      l'.foldl (fun best j =>
        let a := nodes.getD best default
        let b := nodes.getD j default
        if decide (a.value < b.value) ||
            (a.value == b.value && decide (a.state.score < b.state.score))
        then j else best) b ∈ i :: rest := by
    intro l'
    induction l' with
    | nil =>
      intro b hb _
      exact hb
    | cons j js ihl =>
      intro b hb hsub
      simp only [List.foldl_cons]
      apply ihl
      · dsimp only
        split
        · exact hsub j (List.mem_cons_self _ _)
        · exact hb
      · intro x hx
        exact hsub x (List.mem_cons_of_mem _ hx)
  exact hgen rest i (List.mem_cons_self _ _) (fun j hj => List.mem_cons_of_mem _ hj)

theorem reconstructWalk_neg_one (nodes : List Node) (fuel : Nat) :
    reconstructWalk nodes fuel (-1) = [] := by
  cases fuel with
  | zero => rfl
  | succ f =>
    rw [reconstructWalk]
    rw [if_pos (by rfl)]

theorem runSeq_append (s : GameState) (xs ys : List Move) :
    runSeq s (xs ++ ys) = (runSeq s xs).bind (fun t => runSeq t ys) := by
  induction xs generalizing s with
  | nil => rfl
  | cons m xs ih =>
    rw [List.cons_append, runSeq, runSeq]
    by_cases hml : moveLegal s m = true
    · rw [if_pos hml, if_pos hml]
      cases hsim : simulate_move s (m.piece_index : Int) m.row m.col with
      | ok r => exact ih r.1
      | error e => rfl
    · rw [if_neg hml, if_neg hml]
      rfl

theorem walk_spec (initial : GameState) (nodes : List Node)
    (hA : ArenaOK initial nodes) (k : Nat) :
    k < nodes.length → ∀ fuel, k < fuel →
      ∃ g, runSeq initial (reconstructWalk nodes fuel (k : Int)).reverse = some g ∧
        g = (nodes.getD k default).state := by
  induction k using Nat.strong_induction_on with
  | _ k ih =>
    intro hk fuel hfuel
    obtain ⟨f, rfl⟩ : ∃ f, fuel = f + 1 := ⟨fuel - 1, by omega⟩
    have hunfold : reconstructWalk nodes (f + 1) (k : Int) =
        (match (nodes.getD k default).move with
         | some m => [m]
         | none => []) ++ reconstructWalk nodes f (nodes.getD k default).parent := by
      rw [reconstructWalk]
      rw [if_neg (by simp)]
      rw [Int.toNat_natCast]
    obtain ⟨h0, hpos⟩ := hA.2.1 k hk
    by_cases hk0 : k = 0
    · subst hk0
      obtain ⟨hpar, hmove, hstate⟩ := h0 rfl
      rw [hunfold, hmove, hpar, reconstructWalk_neg_one]
      exact ⟨initial, rfl, hstate.symm⟩
    · obtain ⟨p, hp, hpar, m, hmove, hlegal, r, hsim, hr⟩ := hpos (by omega)
      rw [hunfold, hmove, hpar]
      obtain ⟨g, hrun, hg⟩ := ih p hp (by omega) f (by omega)
      rw [List.reverse_append, List.reverse_cons, List.reverse_nil, List.nil_append,
        runSeq_append, hrun]
      refine ⟨r.1, ?_, hr⟩
      show runSeq g [m] = some r.1
      rw [hg, runSeq, if_pos hlegal, hsim]
      rfl

theorem expandBeam_eq (w : HeuristicWeights) (nodes : List Node) (beam : List Nat) :
    expandBeam w nodes beam = beam.foldlM (expandNode w) (nodes, []) := rfl

theorem beamLoop_succ_eq (w : HeuristicWeights) (bw : Int) (d : Nat)
    (nodes : List Node) (beam : List Nat) :
    beamLoop w bw (d + 1) (nodes, beam) =
      (expandBeam w nodes beam) >>= fun r =>
        if r.2.isEmpty then .ok (r.1, beam)
        else beamLoop w bw d (r.1, (r.2.mergeSort (nodeKeyGe r.1)).take bw.toNat) := rfl

theorem beamLoop_ok (w : HeuristicWeights) (bw : Int) (initial : GameState)
    (hbw : 1 ≤ bw) (d : Nat) :
    ∀ (nodes : List Node) (beam : List Nat),
      ArenaOK initial nodes → (∀ i ∈ beam, i < nodes.length) → beam ≠ [] →
      ∃ out, beamLoop w bw d (nodes, beam) = .ok out ∧
        ArenaOK initial out.1 ∧ (∀ i ∈ out.2, i < out.1.length) ∧ out.2 ≠ [] ∧
        ((∀ i ∈ beam, 0 < i) → (∀ i ∈ out.2, 0 < i)) := by
  induction d with
  | zero =>
    intro nodes beam hA hB hne
    exact ⟨(nodes, beam), rfl, hA, hB, hne, fun h => h⟩
  | succ d ihd =>
    intro nodes beam hA hB hne
    obtain ⟨out1, hout1, ⟨hA1, hlen1, hpre1, hcand1⟩, _, _, _⟩ :=
      expandBeam_fold_ok w initial nodes beam (nodes, [])
        ⟨hA, Nat.le_refl _, fun _ _ => rfl, by simp⟩ hB
    have hEB : expandBeam w nodes beam = .ok out1 := by
      rw [expandBeam_eq]
      exact hout1
    rw [beamLoop_succ_eq, hEB, except_bind_ok]
    by_cases hemp : out1.2.isEmpty
    · rw [if_pos hemp]
      refine ⟨(out1.1, beam), rfl, hA1, ?_, hne, fun h => h⟩
      intro i hi
      have := hB i hi
      show i < out1.1.length
      omega
    · rw [if_neg hemp]
      have hlenpos : 0 < out1.2.length := by
        cases hcase : out1.2 with
        | nil => rw [hcase] at hemp; exact absurd rfl hemp
        | cons a l => simp
      have hmemb : ∀ i ∈ (out1.2.mergeSort (nodeKeyGe out1.1)).take bw.toNat,
          i ∈ out1.2 := fun i hi => List.mem_mergeSort.mp (List.mem_of_mem_take hi)
      have hbound : ∀ i ∈ (out1.2.mergeSort (nodeKeyGe out1.1)).take bw.toNat,
          i < out1.1.length := fun i hi => (hcand1 i (hmemb i hi)).2
      have hpos : ∀ i ∈ (out1.2.mergeSort (nodeKeyGe out1.1)).take bw.toNat, 0 < i := by
        intro i hi
        have h1 := (hcand1 i (hmemb i hi)).1
        have h2 := hA.1
        omega
      have hne' : (out1.2.mergeSort (nodeKeyGe out1.1)).take bw.toNat ≠ [] := by
        have hlt : 0 < ((out1.2.mergeSort (nodeKeyGe out1.1)).take bw.toNat).length := by
          rw [List.length_take, List.length_mergeSort]
          have : 0 < bw.toNat := by omega
          omega
        intro hnil
        rw [hnil] at hlt
        exact absurd hlt (by simp)
      obtain ⟨out, hout, hAO, hBO, hneO, hprop⟩ :=
        ihd out1.1 ((out1.2.mergeSort (nodeKeyGe out1.1)).take bw.toNat) hA1 hbound hne'
      exact ⟨out, hout, hAO, hBO, hneO, fun _ => hprop hpos⟩

theorem legal_moves_nil_of_hand_nil (s : GameState) (h : s.hand.length = 0) :
    legal_moves s = [] := by
  simp [legal_moves, h]

theorem beamLoop_stuck (w : HeuristicWeights) (bw : Int) (initial : GameState)
    (hlm : legal_moves initial = []) (d : Nat) :
    beamLoop w bw d ([⟨initial, -1, none, evaluate initial w⟩], [0]) =
      .ok ([⟨initial, -1, none, evaluate initial w⟩], [0]) := by
  cases d with
  | zero => rfl
  | succ d =>
    rw [beamLoop_succ_eq]
    have hEN : expandNode w ([⟨initial, -1, none, evaluate initial w⟩], ([] : List Nat))
        0 = .ok ([⟨initial, -1, none, evaluate initial w⟩], []) := by
      have hstate0 : ((([(⟨initial, -1, none, evaluate initial w⟩ : Node)],
          ([] : List Nat)).1.getD 0 default).state) = initial := rfl
      unfold expandNode
      rw [hstate0, hlm]
      rfl
    have hEB : expandBeam w [⟨initial, -1, none, evaluate initial w⟩] [0] =
        .ok ([⟨initial, -1, none, evaluate initial w⟩], []) := by
      rw [expandBeam_eq, List.foldlM_cons, hEN, except_bind_ok]
      rfl
    rw [hEB, except_bind_ok]
    rfl

theorem root_arenaOK (initial : GameState) (w : HeuristicWeights)
    (hvalid : validState initial = true) :
    ArenaOK initial [⟨initial, -1, none, evaluate initial w⟩] := by
  refine ⟨by simp, ?_, ?_⟩
  · intro k hk
    have hk0 : k = 0 := by simpa using hk
    subst hk0
    exact ⟨fun _ => ⟨rfl, rfl, rfl⟩, fun h => absurd h (by omega)⟩
  · intro k hk
    have hk0 : k = 0 := by simpa using hk
    subst hk0
    exact hvalid

theorem reconstructMoves_ne_nil (nodes : List Node) (k : Nat) (m : Move)
    (hmove : (nodes.getD k default).move = some m) :
    reconstructMoves nodes (k : Int) ≠ [] := by
  unfold reconstructMoves
  rw [reconstructWalk]
  rw [if_neg (by simp), Int.toNat_natCast]
  simp only []
  rw [hmove]
  simp

theorem bs_core (initial : GameState) (w : HeuristicWeights) (bw : Int)
    (hvalid : validState initial = true) (hbw : 1 ≤ bw) (md : Int) (hmd : 0 ≤ md) :
    ∃ seq, (beamLoop w bw md.toNat ([⟨initial, -1, none, evaluate initial w⟩],
        [0])).map (fun r => reconstructMoves r.1 ((maxBy r.1 r.2 : Nat) : Int)) =
        .ok seq ∧
      (runSeq initial seq).isSome = true ∧
      (legal_moves initial = [] → seq = []) ∧
      (legal_moves initial ≠ [] → 1 ≤ md → seq ≠ []) := by
  by_cases hlm : legal_moves initial = []
  · rw [beamLoop_stuck w bw initial hlm]
    exact ⟨[], rfl, rfl, fun _ => rfl, fun h => absurd hlm h⟩
  · by_cases hmd1 : 1 ≤ md
    · obtain ⟨D, hD⟩ : ∃ D, md.toNat = D + 1 := ⟨md.toNat - 1, by omega⟩
      rw [hD, beamLoop_succ_eq]
      have hroot := root_arenaOK initial w hvalid
      obtain ⟨out1, hout1, ⟨hA1, hlen1, hpre1, hcand1⟩, _, _, hnonempty⟩ :=
        expandBeam_fold_ok w initial [⟨initial, -1, none, evaluate initial w⟩] [0]
          ([⟨initial, -1, none, evaluate initial w⟩], [])
          ⟨hroot, Nat.le_refl _, fun _ _ => rfl, by simp⟩
          (fun i hi => by
            have h0 : i = 0 := by simpa using hi
            rw [h0]
            simp)
      have hout1ne : out1.2 ≠ [] := by
        apply hnonempty 0 (List.mem_cons_self _ _)
        rw [show (([⟨initial, -1, none, evaluate initial w⟩] :
          List Node).getD 0 default).state = initial from rfl]
        exact hlm
      have hEB : expandBeam w [⟨initial, -1, none, evaluate initial w⟩] [0] =
          .ok out1 := by
        rw [expandBeam_eq]
        exact hout1
      rw [hEB, except_bind_ok,
        if_neg (fun h => hout1ne (List.isEmpty_iff.mp h))]
      have hmemb : ∀ i ∈ (out1.2.mergeSort (nodeKeyGe out1.1)).take bw.toNat,
          i ∈ out1.2 := fun i hi => List.mem_mergeSort.mp (List.mem_of_mem_take hi)
      have hbound : ∀ i ∈ (out1.2.mergeSort (nodeKeyGe out1.1)).take bw.toNat,
          i < out1.1.length := fun i hi => (hcand1 i (hmemb i hi)).2
      have hposB : ∀ i ∈ (out1.2.mergeSort (nodeKeyGe out1.1)).take bw.toNat, 0 < i := by
        intro i hi
        have h1 := (hcand1 i (hmemb i hi)).1
        have h2 : (0 : Nat) < 1 := Nat.zero_lt_one
        simp only [List.length_cons, List.length_nil] at h1
        omega
      have hne' : (out1.2.mergeSort (nodeKeyGe out1.1)).take bw.toNat ≠ [] := by
        have hlenpos : 0 < out1.2.length := List.length_pos.mpr hout1ne
        have hlt : 0 < ((out1.2.mergeSort (nodeKeyGe out1.1)).take bw.toNat).length := by
          rw [List.length_take, List.length_mergeSort]
          have : 0 < bw.toNat := by omega
          omega
        exact List.length_pos.mp hlt
      obtain ⟨out, hout, hAO, hBO, hneO, hprop⟩ :=
        beamLoop_ok w bw initial hbw D out1.1
          ((out1.2.mergeSort (nodeKeyGe out1.1)).take bw.toNat) hA1 hbound hne'
      rw [hout]
      refine ⟨reconstructMoves out.1 ((maxBy out.1 out.2 : Nat) : Int), rfl,
        ?_, fun h => absurd h hlm, fun _ _ => ?_⟩
      · obtain ⟨a, l, hal⟩ : ∃ a l, out.2 = a :: l := by
          cases hcase : out.2 with
          | nil => exact absurd hcase hneO
          | cons a l => exact ⟨a, l, rfl⟩
        have hbest : maxBy out.1 out.2 ∈ out.2 := by
          rw [hal]
          exact maxBy_mem out.1 a l
        have hbestlt : maxBy out.1 out.2 < out.1.length := hBO _ hbest
        obtain ⟨g, hrun, _⟩ := walk_spec initial out.1 hAO (maxBy out.1 out.2)
          hbestlt (out.1.length + 1) (by omega)
        unfold reconstructMoves
        rw [hrun]
        rfl
      · obtain ⟨a, l, hal⟩ : ∃ a l, out.2 = a :: l := by
          cases hcase : out.2 with
          | nil => exact absurd hcase hneO
          | cons a l => exact ⟨a, l, rfl⟩
        have hbest : maxBy out.1 out.2 ∈ out.2 := by
          rw [hal]
          exact maxBy_mem out.1 a l
        have hbestpos : 0 < maxBy out.1 out.2 := hprop hposB _ hbest
        have hbestlt : maxBy out.1 out.2 < out.1.length := hBO _ hbest
        obtain ⟨_, hposN⟩ := hAO.2.1 _ hbestlt
        obtain ⟨p, _, _, m, hmove, _⟩ := hposN hbestpos
        exact reconstructMoves_ne_nil out.1 _ m hmove
    · have hz : md.toNat = 0 := by omega
      rw [hz]
      exact ⟨[], rfl, rfl, fun h => absurd h hlm, fun _ h1 => absurd h1 hmd1⟩

theorem beam_search_eq_some (initial : GameState) (w : HeuristicWeights) (bw dv : Int)
    (hbw : ¬bw ≤ 0) (hdv : ¬dv < 0) :
    beam_search_best_sequence initial bw (some dv) w =
      (beamLoop w bw dv.toNat ([⟨initial, -1, none, evaluate initial w⟩], [0])).map
        (fun r => reconstructMoves r.1 ((maxBy r.1 r.2 : Nat) : Int)) := by
  unfold beam_search_best_sequence
  rw [if_neg hbw]
  simp only []
  rw [if_neg hdv]

theorem beam_search_eq_none (initial : GameState) (w : HeuristicWeights) (bw : Int)
    (hbw : ¬bw ≤ 0) :
    beam_search_best_sequence initial bw none w =
      (beamLoop w bw ((initial.hand.length : Int)).toNat
        ([⟨initial, -1, none, evaluate initial w⟩], [0])).map
        (fun r => reconstructMoves r.1 ((maxBy r.1 r.2 : Nat) : Int)) := by
  unfold beam_search_best_sequence
  rw [if_neg hbw]
  simp only []
  rw [if_neg (by omega : ¬((initial.hand.length : Int) < 0))]

/-- C2: with beam_width ≥ 1 and a valid depth, the search returns a sequence;
it is empty exactly when the initial state has no legal moves (for the default
depth), every returned move is legal in the state reached by the preceding
moves (`runSeq` succeeds), and `select_best_move` returns the sequence's first
move (none when empty). -/
theorem beam_search_best_sequence_correct (initial : GameState) (bw : Int)
    (d : Option Int) (w : HeuristicWeights)
    (hvalid : validState initial = true) (hbw : 1 ≤ bw)
    (hd : ∀ dv, d = some dv → 0 ≤ dv) :
    ∃ seq, beam_search_best_sequence initial bw d w = .ok seq ∧
      (runSeq initial seq).isSome = true ∧
      (legal_moves initial = [] → seq = []) ∧
      (d = none → (seq = [] ↔ legal_moves initial = [])) ∧
      select_best_move initial bw d w = .ok seq.head? := by
  have hbw' : ¬bw ≤ 0 := by omega
  cases d with
  | none =>
    obtain ⟨seq, h1, h2, h3, h4⟩ := bs_core initial w bw hvalid hbw
      ((initial.hand.length : Int)) (Int.natCast_nonneg _)
    have hbs : beam_search_best_sequence initial bw none w = .ok seq := by
      rw [beam_search_eq_none initial w bw hbw']
      exact h1
    refine ⟨seq, hbs, h2, h3, ?_, ?_⟩
    · intro _
      constructor
      · intro hseq
        by_contra hlm
        have hhand : 1 ≤ (initial.hand.length : Int) := by
          by_contra hh
          have hz : initial.hand.length = 0 := by omega
          exact hlm (legal_moves_nil_of_hand_nil initial hz)
        exact h4 hlm hhand hseq
      · exact h3
    · unfold select_best_move
      rw [hbs]
      rfl
  | some dv =>
    have hdv : 0 ≤ dv := hd dv rfl
    obtain ⟨seq, h1, h2, h3, _⟩ := bs_core initial w bw hvalid hbw dv hdv
    have hbs : beam_search_best_sequence initial bw (some dv) w = .ok seq := by
      rw [beam_search_eq_some initial w bw dv hbw' (by omega)]
      exact h1
    refine ⟨seq, hbs, h2, h3, fun h => absurd h (Option.some_ne_none dv), ?_⟩
    unfold select_best_move
    rw [hbs]
    rfl

theorem beam_search_best_sequence_correct_witness :
    validState sample2 = true ∧ (1 : Int) ≤ 1 ∧
      (∃ seq, beam_search_best_sequence sample2 1 none DEFAULT_WEIGHTS = .ok seq ∧
        (runSeq sample2 seq).isSome = true ∧
        (legal_moves sample2 = [] → seq = []) ∧
        ((none : Option Int) = none → (seq = [] ↔ legal_moves sample2 = [])) ∧
        select_best_move sample2 1 none DEFAULT_WEIGHTS = .ok seq.head?) :=
  ⟨by decide, by decide,
    beam_search_best_sequence_correct sample2 1 none DEFAULT_WEIGHTS (by decide)
      (by decide) (fun dv h => nomatch h)⟩

/-- C8: the planner fails iff beam_width < 1 (checked first, with its own
error) or an explicitly supplied depth is negative; an omitted depth defaults
to the current hand size; with valid parameters (on a valid state) the search
itself never raises. -/
theorem beam_search_param_validation (initial : GameState) (bw : Int)
    (d : Option Int) (w : HeuristicWeights) (hvalid : validState initial = true) :
    ((beam_search_best_sequence initial bw d w).isOk = false ↔
      bw < 1 ∨ ∃ dv, d = some dv ∧ dv < 0) ∧
    (beam_search_best_sequence initial bw none w =
      beam_search_best_sequence initial bw (some (initial.hand.length : Int)) w) ∧
    (bw < 1 → beam_search_best_sequence initial bw d w =
      .error "beam_width must be >= 1") ∧
    (1 ≤ bw → ∀ dv, d = some dv → dv < 0 →
      beam_search_best_sequence initial bw d w = .error "depth must be >= 0") := by
  have herr1 : bw < 1 → beam_search_best_sequence initial bw d w =
      .error "beam_width must be >= 1" := by
    intro h
    unfold beam_search_best_sequence
    rw [if_pos (by omega)]
  have herr2 : 1 ≤ bw → ∀ dv, d = some dv → dv < 0 →
      beam_search_best_sequence initial bw d w = .error "depth must be >= 0" := by
    intro hbw dv hdeq hdv
    rw [hdeq]
    unfold beam_search_best_sequence
    rw [if_neg (by omega)]
    simp only []
    rw [if_pos hdv]
  refine ⟨?_, ?_, herr1, herr2⟩
  · by_cases hbw : bw < 1
    · constructor
      · intro _
        exact Or.inl hbw
      · intro _
        rw [herr1 hbw]
        rfl
    · have hbw1 : 1 ≤ bw := by omega
      cases d with
      | none =>
        obtain ⟨seq, h1, _⟩ := bs_core initial w bw hvalid hbw1
          ((initial.hand.length : Int)) (Int.natCast_nonneg _)
        have hok : beam_search_best_sequence initial bw none w = .ok seq := by
          rw [beam_search_eq_none initial w bw (by omega)]
          exact h1
        constructor
        · intro hf
          rw [hok] at hf
          cases hf
        · intro hor
          rcases hor with h | ⟨dv, hdeq, _⟩
          · omega
          · cases hdeq
      | some dv =>
        by_cases hdv : dv < 0
        · constructor
          · intro _
            exact Or.inr ⟨dv, rfl, hdv⟩
          · intro _
            rw [herr2 hbw1 dv rfl hdv]
            rfl
        · obtain ⟨seq, h1, _⟩ := bs_core initial w bw hvalid hbw1 dv (by omega)
          have hok : beam_search_best_sequence initial bw (some dv) w = .ok seq := by
            rw [beam_search_eq_some initial w bw dv (by omega) hdv]
            exact h1
          constructor
          · intro hf
            rw [hok] at hf
            cases hf
          · intro hor
            rcases hor with h | ⟨dv', hdeq, hdv'⟩
            · omega
            · cases hdeq
              omega
  · by_cases hbw : bw ≤ 0
    · unfold beam_search_best_sequence
      rw [if_pos hbw]
    · rw [beam_search_eq_none initial w bw hbw,
        beam_search_eq_some initial w bw (initial.hand.length : Int) hbw (by omega)]

theorem beam_search_param_validation_witness :
    validState sample2 = true ∧
      (((beam_search_best_sequence sample2 0 (some (-1)) DEFAULT_WEIGHTS).isOk = false ↔
        (0 : Int) < 1 ∨ ∃ dv, (some (-1) : Option Int) = some dv ∧ dv < 0) ∧
      (beam_search_best_sequence sample2 0 none DEFAULT_WEIGHTS =
        beam_search_best_sequence sample2 0 (some (sample2.hand.length : Int))
          DEFAULT_WEIGHTS) ∧
      ((0 : Int) < 1 → beam_search_best_sequence sample2 0 (some (-1)) DEFAULT_WEIGHTS =
        .error "beam_width must be >= 1") ∧
      ((1 : Int) ≤ 0 → ∀ dv, (some (-1) : Option Int) = some dv → dv < 0 →
        beam_search_best_sequence sample2 0 (some (-1)) DEFAULT_WEIGHTS =
          .error "depth must be >= 0")) :=
  ⟨by decide, beam_search_param_validation sample2 0 (some (-1)) DEFAULT_WEIGHTS
    (by decide)⟩

/-- C3: `can_place` is true iff every occupied mask cell lands in bounds on an
empty board cell (false on any out-of-bounds — including negative — or
occupied target), and is vacuously true for a piece with no occupied cells. -/
theorem can_place_correct (board : Board) (piece : Piece) (row col : Int) :
    (can_place board piece row col = true ↔ PlacementFits board piece row col) ∧
    ((∀ i j, i < piece.height → j < piece.width →
        (piece.shape.getD i []).getD j 0 ≠ 1) →
      can_place board piece row col = true) := by
  refine ⟨can_place_iff board piece row col, ?_⟩
  intro h
  rw [can_place_iff]
  intro i j hi hj hocc
  exact absurd hocc (h i j hi hj)

end Beam1010
